import Mathlib

/-!
Verification development for the gomft NTFS Master File Table parser.

The Go sources are shallowly embedded: byte slices become `List Nat` (on-disk
bytes are values < 256), Go's little-endian integer reads become `leUint`, a Go
runtime panic (out-of-range slice expression, division by zero) is modelled by
an explicit `panic` result constructor, and a Go `error` return by an `err`
constructor.  Machine-integer arithmetic on 64-bit `int` values is modelled on
`Int` with explicit two's-complement wrapping (`wrap64`) at every operation
where the Go code computes in `int`/`int64`.
-/

/-- Little-endian unsigned value of a byte list, as computed by the
`encoding/binary` `LittleEndian.UintNN` readers over the whole list. -/
def leUint : List Nat → Nat
  | [] => 0
  | b :: rest => b + 256 * leUint rest

/-- Go slice expression `data[lo:hi]`: defined iff `0 ≤ lo ≤ hi ≤ len(data)`,
otherwise the Go runtime panics, modelled as `none`. -/
def goSlice (data : List Nat) (lo hi : Int) : Option (List Nat) :=
  if 0 ≤ lo ∧ lo ≤ hi ∧ hi ≤ (data.length : Int) then
    some ((data.drop lo.toNat).take (hi - lo).toNat)
  else none

/-- Two's-complement wrap of an integer into the `int64` range, the effect of
every Go arithmetic operation on 64-bit `int`/`int64` values. -/
def wrap64 (x : Int) : Int := (x + 2 ^ 63) % 2 ^ 64 - 2 ^ 63

/-- Go conversion `int64(u)` of a `uint64` value: two's-complement
reinterpretation. -/
def toInt64 (n : Nat) : Int := if n < 2 ^ 63 then (n : Int) else (n : Int) - 2 ^ 64

/-- Go conversion `int8(b)` of a byte: two's-complement reinterpretation. -/
def int8 (b : Nat) : Int := if b < 128 then (b : Int) else (b : Int) - 256

namespace binutil

/-- Package binutil, `Duplicate`: creates a full copy of the input byte slice.
At the value level the copy has the same contents; the aliasing consequences
are modelled separately in the heap-level `mft.ParseRecordH`. -/
def Duplicate (l : List Nat) : List Nat := l

/-- `BinReader.Read(offset, length)`: the slice `data[offset : offset+length]`.
Panics (`none`) when the range is outside the bounds of the data, as the
package documentation states. -/
def Read (data : List Nat) (offset length : Int) : Option (List Nat) :=
  goSlice data offset (offset + length)

/-- `BinReader.ReadFrom(offset)`: the slice `data[offset:]`. -/
def ReadFrom (data : List Nat) (offset : Int) : Option (List Nat) :=
  goSlice data offset data.length

/-- `BinReader.Reader(offset, length)`: a sub-reader over `Read(offset, length)`;
we identify a reader with its underlying data. -/
def Reader (data : List Nat) (offset length : Int) : Option (List Nat) :=
  Read data offset length

/-- `BinReader.Byte(offset)`: `Read(offset, 1)[0]`. -/
def Byte (data : List Nat) (offset : Int) : Option Nat :=
  (Read data offset 1).map (fun l => l.headD 0)

/-- `BinReader.Uint16(offset)`: little-endian 16-bit read. -/
def Uint16 (data : List Nat) (offset : Int) : Option Nat :=
  (Read data offset 2).map leUint

/-- `BinReader.Uint32(offset)`: little-endian 32-bit read. -/
def Uint32 (data : List Nat) (offset : Int) : Option Nat :=
  (Read data offset 4).map leUint

/-- `BinReader.Uint64(offset)`: little-endian 64-bit read. -/
def Uint64 (data : List Nat) (offset : Int) : Option Nat :=
  (Read data offset 8).map leUint

end binutil

/-- Package utf16, `DecodeString`: decodes consecutive little-endian 16-bit
code units.  We model the result at the code-unit level (a `List Nat`); the
conversion of code units to runes does not affect any claim. -/
def utf16Units : List Nat → List Nat
  | b0 :: b1 :: rest => (b0 + 256 * b1) :: utf16Units rest
  | _ => []

namespace mft

/-- The error values the embedded decoders can return; each constructor stands
for one `fmt.Errorf` site in the Go sources. -/
inductive Err
  | recordTooShort
  | unknownSignature
  | badFileReference
  | badFirstAttributeOffset
  | fixUpMismatch
  | attrTooShort
  | attrHeaderTooShort
  | recordLengthOverflow
  | nonPositiveRecordLength
  | recordLengthExceedsData
  | attrDataTooShort
  | attrDataLengthOverflow
  | dataRunTooShort
  | bootSectorTooShort
deriving DecidableEq

/-- Result of a Go call returning `(T, error)` where additionally the Go
runtime may panic: `ok` on success, `err` when a non-nil error is returned,
`panic` for a runtime panic. -/
inductive Res (α : Type)
  | ok (a : α)
  | err (e : Err)
  | panic
deriving DecidableEq

instance : Monad Res where
  pure := Res.ok
  bind := fun r f =>
    match r with
    | .ok a => f a
    | .err e => .err e
    | .panic => .panic

/-- Lift a bounds-checked read into `Res`: an out-of-range read is a panic. -/
def opt {α : Type} : Option α → Res α
  | some a => Res.ok a
  | none => Res.panic

/-- Result of a Go call returning `([]T, error)`: on success the full list; on
failure the returned slice (`none` models a nil slice) together with the
error; `panic` for a runtime panic. -/
inductive SERes (α : Type)
  | ok (l : List α)
  | fail (part : Option (List α)) (e : Err)
  | panic
deriving DecidableEq

def maxInt : Nat := 2 ^ 63 - 1

def fileSignature : List Nat := [0x46, 0x49, 0x4c, 0x45]

/-- `padTo`: pads `data` to `length` bytes; when padding is needed and the top
bit of the final byte of `data` is set the padding bytes are `0xFF` (sign
extension), otherwise zero. -/
def padTo (data : List Nat) (length : Nat) : List Nat :=
  if length ≤ data.length then data
  else
    match data.getLast? with
    | none => List.replicate length 0
    | some last =>
        data ++ List.replicate (length - data.length) (if last.testBit 7 then 0xFF else 0)

structure FileReference where
  RecordNumber : Nat
  SequenceNumber : Nat
deriving DecidableEq

/-- `ParseFileReference`: 8 bytes; the record number is the 64-bit
little-endian value of `padTo(b[:6], 8)` and the sequence number the 16-bit
value of `b[6:]`. -/
def ParseFileReference (b : List Nat) : Res FileReference :=
  if b.length ≠ 8 then .err .badFileReference
  else
    .ok { RecordNumber := leUint ((padTo (b.take 6) 8).take 8),
          SequenceNumber := leUint ((b.drop 6).take 2) }

structure DataRun where
  OffsetCluster : Int
  LengthInClusters : Nat
deriving DecidableEq

/-- Loop body of `ParseDataRuns`.  `header &^ 0xF0` is the low nibble and
`header >> 4` the high nibble of the header byte; the run data is the next
`lengthLength + offsetLength` bytes, split into an unsigned length (via
`padTo`) and a signed offset (via `padTo` and the `int64` conversion). -/
def parseDataRunsLoop : Nat → List Nat → List DataRun → SERes DataRun
  | _, [], acc => .ok acc.reverse
  | 0, _ :: _, _ => .panic
  | fuel + 1, header :: tail, acc =>
    if header = 0 then .ok acc.reverse
    else
      let lengthLength := header &&& 0x0F
      let offsetLength := header >>> 4
      let dataRunDataLength := offsetLength + lengthLength
      let headerAndDataLength := dataRunDataLength + 1
      if (header :: tail).length < headerAndDataLength then .fail none .dataRunTooShort
      else
        match binutil.Reader (header :: tail) 1 dataRunDataLength with
        | none => .panic
        | some dataRunData =>
          match binutil.Read dataRunData 0 lengthLength,
                binutil.Read dataRunData lengthLength offsetLength with
          | some lengthBytes, some offsetBytes =>
            let dataLength := leUint ((padTo lengthBytes 8).take 8)
            let dataOffset := toInt64 (leUint ((padTo offsetBytes 8).take 8))
            parseDataRunsLoop fuel ((header :: tail).drop headerAndDataLength)
              ({ OffsetCluster := dataOffset, LengthInClusters := dataLength } :: acc)
          | _, _ => .panic

/-- `ParseDataRuns`: empty input yields the empty run list, otherwise the walk
starts at the first header byte.  The fuel counts loop iterations; every
iteration consumes at least one byte, so `b.length` iterations always suffice
and the fuel-exhaustion branch is unreachable (proved with claim C7). -/
def ParseDataRuns (b : List Nat) : SERes DataRun :=
  if b.length = 0 then .ok []
  else parseDataRunsLoop b.length b []

end mft

namespace fragment

/-- A fragment: absolute byte offset and byte length on the volume. -/
structure Fragment where
  Offset : Int
  Length : Int
deriving DecidableEq

end fragment

namespace mft

/-- Loop of `DataRunsToFragments`, carrying `previousOffsetCluster`.  Each Go
`int64` operation wraps. -/
def dataRunsToFragmentsLoop (bytesPerCluster : Int) : Int → List DataRun → List fragment.Fragment
  | _, [] => []
  | previousOffsetCluster, run :: rest =>
    let exactClusterOffset := wrap64 (previousOffsetCluster + run.OffsetCluster)
    { Offset := wrap64 (exactClusterOffset * bytesPerCluster),
      Length := wrap64 (toInt64 run.LengthInClusters * bytesPerCluster) }
      :: dataRunsToFragmentsLoop bytesPerCluster exactClusterOffset rest

/-- `DataRunsToFragments`: relative cluster runs to absolute byte fragments. -/
def DataRunsToFragments (runs : List DataRun) (bytesPerCluster : Int) : List fragment.Fragment :=
  dataRunsToFragmentsLoop bytesPerCluster 0 runs

end mft

namespace bootsect

structure BootSector where
  OemId : List Nat
  BytesPerSector : Int
  SectorsPerCluster : Int
  MediaDescriptor : Nat
  SectorsPerTrack : Int
  NumberofHeads : Int
  HiddenSectors : Int
  TotalSectors : Nat
  MftClusterNumber : Nat
  MftMirrorClusterNumber : Nat
  FileRecordSegmentSizeInBytes : Int
  IndexBufferSizeInBytes : Int
  VolumeSerialNumber : List Nat
deriving DecidableEq

/-- `bytesOrClustersToBytes`: the byte is read as a signed `int8`; a negative
value `i` yields `1 << -i` computed in a 64-bit `int`, a non-negative value
yields `i * bytesPerCluster`. -/
def bytesOrClustersToBytes (b : Nat) (bytesPerCluster : Int) : Int :=
  let i := int8 b
  if i < 0 then wrap64 (2 ^ (-i).toNat)
  else wrap64 (i * bytesPerCluster)

/-- The sectors-per-cluster byte at 0x0D under the same signed/exponent rule:
negative values give `1 << -v` sectors, computed in a 64-bit `int`. -/
def sectorsPerClusterOf (data : List Nat) : Int :=
  let v := int8 (data.getD 0x0D 0)
  if v < 0 then wrap64 (2 ^ (-v).toNat) else v

/-- `bytesPerCluster` as computed inside `Parse`: bytes-per-sector times
sectors-per-cluster, in 64-bit `int` arithmetic. -/
def bytesPerClusterOf (data : List Nat) : Int :=
  wrap64 ((leUint ((data.drop 0x0B).take 2) : Int) * sectorsPerClusterOf data)

/-- The bounds-checked reads of `Parse`; `none` would be a panic, but every
offset is within the 80 bytes guaranteed by the caller. -/
def ParseReads (data : List Nat) : Option BootSector := do
  let oemId ← binutil.Read data 0x03 8
  let bytesPerSector ← binutil.Uint16 data 0x0B
  let spcByte ← binutil.Byte data 0x0D
  let mediaDescriptor ← binutil.Byte data 0x15
  let sectorsPerTrack ← binutil.Uint16 data 0x18
  let numberOfHeads ← binutil.Uint16 data 0x1A
  let hiddenSectors ← binutil.Uint16 data 0x1C
  let totalSectors ← binutil.Uint64 data 0x28
  let mftCluster ← binutil.Uint64 data 0x30
  let mftMirrorCluster ← binutil.Uint64 data 0x38
  let frsByte ← binutil.Byte data 0x40
  let ibByte ← binutil.Byte data 0x44
  let serial ← binutil.Read data 0x48 8
  let sectorsPerCluster : Int :=
    if int8 spcByte < 0 then wrap64 (2 ^ (-(int8 spcByte)).toNat) else int8 spcByte
  let bytesPerCluster := wrap64 ((bytesPerSector : Int) * sectorsPerCluster)
  some
    { OemId := oemId
      BytesPerSector := bytesPerSector
      SectorsPerCluster := sectorsPerCluster
      MediaDescriptor := mediaDescriptor
      SectorsPerTrack := sectorsPerTrack
      NumberofHeads := numberOfHeads
      HiddenSectors := hiddenSectors
      TotalSectors := totalSectors
      MftClusterNumber := mftCluster
      MftMirrorClusterNumber := mftMirrorCluster
      FileRecordSegmentSizeInBytes := bytesOrClustersToBytes frsByte bytesPerCluster
      IndexBufferSizeInBytes := bytesOrClustersToBytes ibByte bytesPerCluster
      VolumeSerialNumber := binutil.Duplicate serial }

/-- `bootsect.Parse`: rejects data shorter than 80 bytes, otherwise decodes
the fixed-offset fields. -/
def Parse (data : List Nat) : mft.Res BootSector :=
  if data.length < 80 then .err .bootSectorTooShort
  else
    match ParseReads data with
    | some s => .ok s
    | none => .panic

end bootsect

namespace mft

/-- Verification loop of `applyFixUp`: starting at sector index `i` with `k`
sectors left to check, compare the two bytes `b[sectorSize*i-2 : sectorSize*i]`
with the update sequence number; `none` models the panic on an out-of-range
slice, `some false` the first mismatch, `some true` success. -/
def checkSectors (b usn : List Nat) (sectorSize : Nat) : Nat → Nat → Option Bool
  | _, 0 => some true
  | i, k + 1 =>
    match goSlice b ((sectorSize : Int) * i - 2) ((sectorSize : Int) * i) with
    | none => none
    | some two => if usn ≠ two then some false else checkSectors b usn sectorSize (i + 1) k

/-- Patch loop of `applyFixUp`: with `k` sectors left starting at sector index
`i`, writes the update-sequence-array pair `b[usaStart + 2*(i-1) : +2]` over
the last two bytes of sector `i`; the array is a slice aliasing `b`, so each
pair is read from the current buffer. -/
def patchSectors (usaStart sectorSize : Nat) : List Nat → Nat → Nat → List Nat
  | b, _, 0 => b
  | b, i, k + 1 =>
    let p := sectorSize * i - 2
    let x0 := b.getD (usaStart + 2 * (i - 1)) 0
    let x1 := b.getD (usaStart + 2 * (i - 1) + 1) 0
    patchSectors usaStart sectorSize ((b.set p x0).set (p + 1) x1) (i + 1) k

/-- `applyFixUp(b, offset, length)`: reads the `length*2`-byte update sequence
at `offset` (panicking when out of range), splits it into the 2-byte update
sequence number and the array, derives `sectorCount` and `sectorSize`
(division by a zero `sectorCount` is a panic), verifies every sector's last
two bytes against the number, and on success patches them from the array. -/
def applyFixUp (b : List Nat) (offset length : Int) : Res (List Nat) :=
  match binutil.Read b offset (length * 2) with
  | none => .panic
  | some updateSequence =>
    if updateSequence.length < 2 then .panic
    else
      let updateSequenceNumber := updateSequence.take 2
      let sectorCount := (updateSequence.length - 2) / 2
      if sectorCount = 0 then .panic
      else
        let sectorSize := b.length / sectorCount
        match checkSectors b updateSequenceNumber sectorSize 1 sectorCount with
        | none => .panic
        | some false => .err .fixUpMismatch
        | some true => .ok (patchSectors (offset.toNat + 2) sectorSize b 1 sectorCount)

structure Attribute where
  Type' : Nat
  Resident : Bool
  Name : List Nat
  Flags : Nat
  AttributeId : Nat
  AllocatedSize : Nat
  ActualSize : Nat
  Data : List Nat
deriving DecidableEq

/-- `ParseAttribute`: rejects data shorter than 22 bytes; decodes the optional
name at `nameOffset` (a read that can run past the buffer and panic), then the
resident or non-resident body. -/
def ParseAttribute (b : List Nat) : Res Attribute := do
  if b.length < 22 then Res.err .attrTooShort
  else do
    let nameLength ← opt (binutil.Byte b 0x09)
    let nameOffset ← opt (binutil.Uint16 b 0x0A)
    let name ←
      if nameLength ≠ 0 then
        opt ((binutil.Read b nameOffset (nameLength * 2)).map utf16Units)
      else pure []
    let residentByte ← opt (binutil.Byte b 0x08)
    let resident := residentByte = 0x00
    let body ←
      if resident then do
        let dataOffset ← opt (binutil.Uint16 b 0x14)
        let uDataLength ← opt (binutil.Uint32 b 0x10)
        if uDataLength > maxInt then Res.err .attrDataLengthOverflow
        else
          let expectedDataLength := dataOffset + uDataLength
          if b.length < expectedDataLength then Res.err .attrDataTooShort
          else do
            let attributeData ← opt (binutil.Read b dataOffset uDataLength)
            Res.ok ((0 : Nat), (0 : Nat), attributeData)
      else do
        let dataOffset ← opt (binutil.Uint16 b 0x20)
        if b.length < dataOffset then Res.err .attrDataTooShort
        else do
          let allocatedSize ← opt (binutil.Uint64 b 0x28)
          let actualSize ← opt (binutil.Uint64 b 0x30)
          let attributeData ← opt (binutil.ReadFrom b dataOffset)
          Res.ok (allocatedSize, actualSize, attributeData)
    let typeVal ← opt (binutil.Uint32 b 0)
    let flags ← opt (binutil.Uint16 b 0x0C)
    let attributeId ← opt (binutil.Uint16 b 0x0E)
    Res.ok
      { Type' := typeVal
        Resident := resident
        Name := name
        Flags := flags
        AttributeId := attributeId
        AllocatedSize := body.1
        ActualSize := body.2.1
        Data := binutil.Duplicate body.2.2 }

/-- Walk of `ParseAttributes`: stops at the 0xFFFFFFFF terminator, rejects
short headers and bad record lengths, parses each carved record, and advances
by the record length.  Error returns carry a nil attribute slice (`none`),
exactly as the Go code returns `nil, err`. -/
def parseAttributesLoop : Nat → List Nat → List Attribute → SERes Attribute
  | _, [], acc => .ok acc.reverse
  | 0, _ :: _, _ => .panic
  | fuel + 1, b, acc =>
    if b.length < 4 then .fail none .attrHeaderTooShort
    else
      match binutil.Uint32 b 0 with
      | none => .panic
      | some attrType =>
        if attrType = 0xFFFFFFFF then .ok acc.reverse
        else if b.length < 8 then .fail none .attrHeaderTooShort
        else
          match binutil.Uint32 b 0x04 with
          | none => .panic
          | some uRecordLength =>
            if uRecordLength > maxInt then .fail none .recordLengthOverflow
            else if uRecordLength = 0 then .fail none .nonPositiveRecordLength
            else if uRecordLength > b.length then .fail none .recordLengthExceedsData
            else
              match binutil.Read b 0 uRecordLength with
              | none => .panic
              | some recordData =>
                match ParseAttribute recordData with
                | .panic => .panic
                | .err e => .fail none e
                | .ok attr => parseAttributesLoop fuel (b.drop uRecordLength) (attr :: acc)

/-- `ParseAttributes`: empty input yields the empty list, otherwise the walk
starts at the first attribute header.  The fuel counts loop iterations; every
iteration consumes a record of positive length, so `b.length` iterations
always suffice and the fuel-exhaustion branch is unreachable. -/
def ParseAttributes (b : List Nat) : SERes Attribute :=
  if b.length = 0 then .ok []
  else parseAttributesLoop b.length b []

structure Record where
  Signature : List Nat
  FileReference : mft.FileReference
  BaseRecordReference : mft.FileReference
  LogFileSequenceNumber : Nat
  HardLinkCount : Nat
  Flags : Nat
  ActualSize : Nat
  AllocatedSize : Nat
  NextAttributeId : Nat
  Attributes : List Attribute
deriving DecidableEq

/-- Tail of `ParseRecord` after fix-up: the reader was created over the
buffer that `applyFixUp` patched in place, so every remaining header read and
the attribute walk see the patched bytes. -/
def parseRecordAfterFixUp (sig : List Nat) (baseRecordRef : FileReference)
    (firstAttributeOffset : Nat) (fixed : List Nat) : Res Record := do
  let attrData ← opt (binutil.ReadFrom fixed firstAttributeOffset)
  let attributes ←
    match ParseAttributes attrData with
    | .ok l => Res.ok l
    | .fail _ e => Res.err e
    | .panic => Res.panic
  let recordNumber ← opt (binutil.Uint32 fixed 0x2C)
  let sequenceNumber ← opt (binutil.Uint16 fixed 0x10)
  let logFileSequenceNumber ← opt (binutil.Uint64 fixed 0x08)
  let hardLinkCount ← opt (binutil.Uint16 fixed 0x12)
  let flags ← opt (binutil.Uint16 fixed 0x16)
  let actualSize ← opt (binutil.Uint32 fixed 0x18)
  let allocatedSize ← opt (binutil.Uint32 fixed 0x1C)
  let nextAttributeId ← opt (binutil.Uint16 fixed 0x28)
  Res.ok
    { Signature := binutil.Duplicate sig
      FileReference := { RecordNumber := recordNumber, SequenceNumber := sequenceNumber }
      BaseRecordReference := baseRecordRef
      LogFileSequenceNumber := logFileSequenceNumber
      HardLinkCount := hardLinkCount
      Flags := flags
      ActualSize := actualSize
      AllocatedSize := allocatedSize
      NextAttributeId := nextAttributeId
      Attributes := attributes }

/-- `ParseRecord`: length and signature checks, a private copy of the buffer,
the header reads needed before fix-up, fix-up, then the remaining decoding on
the patched copy. -/
def ParseRecord (b : List Nat) : Res Record :=
  if b.length < 42 then .err .recordTooShort
  else
    let sig := b.take 4
    if sig ≠ fileSignature then .err .unknownSignature
    else
      -- b = binutil.Duplicate(b): all that follows operates on a fresh copy
      -- whose contents equal b.
      (do
        let refBytes ← opt (binutil.Read b 0x20 8)
        let baseRecordRef ←
          match ParseFileReference refBytes with
          | .ok fr => Res.ok fr
          | .err _ => Res.err .badFileReference
          | .panic => Res.panic
        let firstAttributeOffset ← opt (binutil.Uint16 b 0x14)
        if firstAttributeOffset ≥ b.length then Res.err .badFirstAttributeOffset
        else do
          let updateSequenceOffset ← opt (binutil.Uint16 b 0x04)
          let updateSequenceSize ← opt (binutil.Uint16 b 0x06)
          let fixed ← applyFixUp b updateSequenceOffset updateSequenceSize
          parseRecordAfterFixUp sig baseRecordRef firstAttributeOffset fixed)

/-- A heap of byte buffers: Go slices are pointers into buffers, so buffer
mutation and aliasing are modelled by indices into this list. -/
def Heap := List (List Nat)

/-- `applyFixUp` at the heap level: the function mutates the buffer `q` in
place.  The verification loop runs before any write, so on a mismatch (or a
panic) the buffer is unchanged; on success the patched bytes are stored. -/
def applyFixUpH (h : List (List Nat)) (q : Nat) (offset length : Int) :
    List (List Nat) × Res (List Nat) :=
  match applyFixUp (h.getD q []) offset length with
  | .ok patched => (h.set q patched, .ok patched)
  | .err e => (h, .err e)
  | .panic => (h, .panic)

/-- `ParseRecord` at the heap level: the caller passes a pointer `p` to its
buffer; `binutil.Duplicate` allocates a fresh buffer `q`, and fix-up mutates
only buffer `q`. -/
def ParseRecordH (h : List (List Nat)) (p : Nat) : List (List Nat) × Res Record :=
  if p ≥ h.length then (h, .panic)
  else
    let b := h.getD p []
    if b.length < 42 then (h, .err .recordTooShort)
    else
      let sig := b.take 4
      if sig ≠ fileSignature then (h, .err .unknownSignature)
      else
        -- b = binutil.Duplicate(b): allocate a fresh buffer q with b's bytes.
        let q := h.length
        let h2 := h ++ [binutil.Duplicate b]
        -- Header reads before fix-up happen on buffer q, equal to b.
        match opt (binutil.Read b 0x20 8) >>= (fun refBytes =>
              match ParseFileReference refBytes with
              | .ok fr => Res.ok fr
              | .err _ => Res.err .badFileReference
              | .panic => Res.panic) with
        | .err e => (h2, .err e)
        | .panic => (h2, .panic)
        | .ok baseRecordRef =>
          match opt (binutil.Uint16 b 0x14) with
          | .err e => (h2, .err e)
          | .panic => (h2, .panic)
          | .ok firstAttributeOffset =>
            if firstAttributeOffset ≥ b.length then (h2, .err .badFirstAttributeOffset)
            else
              match opt (binutil.Uint16 b 0x04), opt (binutil.Uint16 b 0x06) with
              | .ok updateSequenceOffset, .ok updateSequenceSize =>
                let hr := applyFixUpH h2 q updateSequenceOffset updateSequenceSize
                match hr.2 with
                | .ok fixed =>
                  (hr.1, parseRecordAfterFixUp sig baseRecordRef firstAttributeOffset fixed)
                | .err e => (hr.1, .err e)
                | .panic => (hr.1, .panic)
              | _, _ => (h2, .panic)

end mft

namespace fragment

/-- Outcome of one `Reader.Read` call: success, end of stream (`io.EOF`), a
returned error (seek failure or short source read), or a runtime panic. -/
inductive ReadOut
  | ok
  | eof
  | err
  | panic
deriving DecidableEq

/-- The fragment reader state: the seekable source (a `bytes.Reader` over
`src` with position `pos`), the fragment list, the index of the current
fragment (`-1` before the first), and the bytes remaining in it. -/
structure Reader where
  src : List Nat
  pos : Int
  fragments : List Fragment
  idx : Int
  remaining : Int
deriving DecidableEq

/-- `NewReader`: index starts at -1 with nothing remaining; the source starts
at position 0. -/
def NewReader (src : List Nat) (fragments : List Fragment) : Reader :=
  { src := src, pos := 0, fragments := fragments, idx := -1, remaining := 0 }

/-- One `Reader.Read` call with a request buffer of `n` bytes.  Returns the
bytes read, the new state and the outcome.  When the current fragment is
exhausted the index advances and the source is sought to the next fragment's
offset (`Seek` fails on a negative offset, after `remaining` was already set;
a `bytes.Reader` otherwise reaches exactly the requested position).  The copy
is clamped to the remaining bytes of the fragment and performed by
`io.ReadFull`, which reports `ErrUnexpectedEOF` on a partial read and `EOF`
when no byte at all could be read. -/
def Reader.read (r : Reader) (n : Nat) : List Nat × Reader × ReadOut :=
  if r.idx ≥ (r.fragments.length : Int) then ([], r, .eof)
  else if n = 0 then ([], r, .ok)
  else
    let step : Reader ⊕ (Reader × ReadOut) :=
      if r.remaining = 0 then
        let idx2 := r.idx + 1
        if idx2 ≥ (r.fragments.length : Int) then .inr ({ r with idx := idx2 }, .eof)
        else if idx2 < 0 then .inr (r, .panic)
        else
          let next := r.fragments.getD idx2.toNat { Offset := 0, Length := 0 }
          if next.Offset < 0 then
            .inr ({ r with idx := idx2, remaining := next.Length }, .err)
          else .inl { r with idx := idx2, remaining := next.Length, pos := next.Offset }
      else .inl r
    match step with
    | .inr (r2, o) => ([], r2, o)
    | .inl r2 =>
      if r2.remaining < 0 then ([], r2, .panic)
      else
        let t := min (n : Int) r2.remaining
        let avail := (r2.src.length : Int) - r2.pos
        if t ≤ avail then
          (((r2.src.drop r2.pos.toNat).take t.toNat),
           { r2 with pos := r2.pos + t, remaining := r2.remaining - t }, .ok)
        else
          let m := max avail 0
          (((r2.src.drop r2.pos.toNat).take m.toNat),
           { r2 with pos := r2.pos + m, remaining := r2.remaining - m },
           if m = 0 then .eof else .err)

/-- Repeated reads with an `n`-byte buffer until end of stream, as
`ioutil.ReadAll` performs them; `none` when the fuel runs out or a read
fails. -/
def readAllAux (fuel n : Nat) (r : Reader) : Option (List Nat) :=
  match fuel with
  | 0 => none
  | fuel + 1 =>
    match r.read n with
    | (bs, _, .eof) => some bs
    | (bs, r2, .ok) => (readAllAux fuel n r2).map (fun rest => bs ++ rest)
    | _ => none

/-- The byte range of the source a fragment denotes, following the spec
wording: `S[F.Offset .. F.Offset + F.Length]`. -/
def fragSlice (src : List Nat) (f : Fragment) : List Nat :=
  (src.drop f.Offset.toNat).take f.Length.toNat

/-- Concatenation of the fragments' byte ranges in list order, following the
spec wording. -/
def specConcat (src : List Nat) (fragments : List Fragment) : List Nat :=
  (fragments.map (fragSlice src)).flatten

/-- States a fragment reader over a `bytes.Reader` actually reaches when the
fragments denote ranges of the source: non-negative position and remaining
count, the unread part of the current fragment lies inside the source, an
index past the list only with nothing remaining, and every fragment denotes
a range of the source. -/
def Wf (r : Reader) : Prop :=
  0 ≤ r.pos ∧ 0 ≤ r.remaining ∧ r.pos + r.remaining ≤ (r.src.length : Int) ∧
  (-1) ≤ r.idx ∧
  ((r.fragments.length : Int) ≤ r.idx → r.remaining = 0) ∧
  ∀ f ∈ r.fragments, 0 ≤ f.Offset ∧ 0 ≤ f.Length ∧
    f.Offset + f.Length ≤ (r.src.length : Int)

instance (r : Reader) : Decidable (Wf r) := by
  unfold Wf
  infer_instance

end fragment

/-! Helper lemmas about the byte-slice primitives. -/

theorem goSlice_eq_none_iff (data : List Nat) (lo hi : Int) :
    goSlice data lo hi = none ↔ ¬(0 ≤ lo ∧ lo ≤ hi ∧ hi ≤ (data.length : Int)) := by
  unfold goSlice
  by_cases h : 0 ≤ lo ∧ lo ≤ hi ∧ hi ≤ (data.length : Int) <;> simp [h]

theorem goSlice_some_nat (data : List Nat) (lo hi : Nat) (h1 : lo ≤ hi)
    (h2 : hi ≤ data.length) :
    goSlice data (lo : Int) (hi : Int) = some ((data.drop lo).take (hi - lo)) := by
  have h3 : ((hi : Int) - (lo : Int)).toNat = hi - lo := by omega
  have h4 : ((lo : Int)).toNat = lo := by omega
  unfold goSlice
  rw [if_pos, h3, h4]
  exact ⟨by positivity, by exact_mod_cast h1, by exact_mod_cast h2⟩

namespace binutil

theorem Read_some (data : List Nat) (o l : Nat) (h : o + l ≤ data.length) :
    Read data (o : Int) (l : Int) = some ((data.drop o).take l) := by
  have := goSlice_some_nat data o (o + l) (by omega) h
  unfold Read
  push_cast at this ⊢
  simpa using this

theorem ReadFrom_some (data : List Nat) (o : Nat) (h : o ≤ data.length) :
    ReadFrom data (o : Int) = some (data.drop o) := by
  have := goSlice_some_nat data o data.length h le_rfl
  unfold ReadFrom
  rw [this, List.take_of_length_le (by simp)]

theorem Byte_some (data : List Nat) (o : Nat) (h : o + 1 ≤ data.length) :
    Byte data (o : Int) = some (data.getD o 0) := by
  unfold Byte
  rw [show (1 : Int) = ((1 : Nat) : Int) from rfl, Read_some data o 1 h]
  have hh : ((data.drop o).take 1).headD 0 = (data.drop o).headD 0 := by
    cases data.drop o <;> rfl
  show some (((data.drop o).take 1).headD 0) = some (data.getD o 0)
  rw [hh]
  congr 1
  rw [List.getD_eq_getElem?_getD, List.headD_eq_head?_getD, List.head?_drop]

theorem Uint16_some (data : List Nat) (o : Nat) (h : o + 2 ≤ data.length) :
    Uint16 data (o : Int) = some (leUint ((data.drop o).take 2)) := by
  unfold Uint16
  rw [show (2 : Int) = ((2 : Nat) : Int) from rfl, Read_some data o 2 h]
  rfl

theorem Uint32_some (data : List Nat) (o : Nat) (h : o + 4 ≤ data.length) :
    Uint32 data (o : Int) = some (leUint ((data.drop o).take 4)) := by
  unfold Uint32
  rw [show (4 : Int) = ((4 : Nat) : Int) from rfl, Read_some data o 4 h]
  rfl

theorem Uint64_some (data : List Nat) (o : Nat) (h : o + 8 ≤ data.length) :
    Uint64 data (o : Int) = some (leUint ((data.drop o).take 8)) := by
  unfold Uint64
  rw [show (8 : Int) = ((8 : Nat) : Int) from rfl, Read_some data o 8 h]
  rfl

end binutil

theorem wrap64_modEq (x : Int) : wrap64 x ≡ x [ZMOD 2 ^ 64] := by
  unfold wrap64
  have h1 : (x + 2 ^ 63) % 2 ^ 64 ≡ x + 2 ^ 63 [ZMOD 2 ^ 64] :=
    Int.emod_emod_of_dvd _ dvd_rfl
  have h2 := h1.sub_right ((2 : Int) ^ 63)
  have h3 : x + 2 ^ 63 - 2 ^ 63 = x := by ring
  rw [h3] at h2
  exact h2

theorem toInt64_modEq (n : Nat) : toInt64 n ≡ (n : Int) [ZMOD 2 ^ 64] := by
  unfold toInt64
  split
  · rfl
  · show ((n : Int) - 2 ^ 64) % 2 ^ 64 = (n : Int) % 2 ^ 64
    omega

theorem sum_take_succ_getD (l : List Int) (i : Nat) (h : i < l.length) :
    (l.take (i + 1)).sum = (l.take i).sum + l.getD i 0 := by
  induction l generalizing i with
  | nil => simp at h
  | cons a rest ih =>
    cases i with
    | zero => simp
    | succ j =>
      simp only [List.take_succ_cons, List.sum_cons, List.getD_cons_succ]
      rw [ih j (by simpa using h)]
      ring

theorem leUint_append (l1 l2 : List Nat) :
    leUint (l1 ++ l2) = leUint l1 + 256 ^ l1.length * leUint l2 := by
  induction l1 with
  | nil => simp [leUint]
  | cons b rest ih =>
    simp only [List.cons_append, leUint, List.length_cons, List.append_eq]
    rw [ih]
    ring

/-! Claim C6: bounds behaviour of the BinReader operations. -/

/-- C6 (amended): every `BinReader` operation — byte, u16, u32, u64 reads and
sub-slice views — whose offset or length would read past the end of the
underlying slice panics (the Go runtime bounds panic, modelled by `none`)
rather than returning an error value; no `BoundsExceeded` error exists.
In-bounds reads return exactly the requested byte range, with no silent
truncation. -/
theorem c6_binReader_bounds_panic :
    ∀ (data : List Nat) (offset length : Int),
      (binutil.Read data offset length = none ↔
        ¬(0 ≤ offset ∧ 0 ≤ length ∧ offset + length ≤ (data.length : Int))) ∧
      (∀ l, binutil.Read data offset length = some l →
        l = (data.drop offset.toNat).take length.toNat) ∧
      (binutil.Reader data offset length = binutil.Read data offset length) ∧
      (binutil.Byte data offset = none ↔
        ¬(0 ≤ offset ∧ offset + 1 ≤ (data.length : Int))) ∧
      (binutil.Uint16 data offset = none ↔
        ¬(0 ≤ offset ∧ offset + 2 ≤ (data.length : Int))) ∧
      (binutil.Uint32 data offset = none ↔
        ¬(0 ≤ offset ∧ offset + 4 ≤ (data.length : Int))) ∧
      (binutil.Uint64 data offset = none ↔
        ¬(0 ≤ offset ∧ offset + 8 ≤ (data.length : Int))) ∧
      (binutil.ReadFrom data offset = none ↔
        ¬(0 ≤ offset ∧ offset ≤ (data.length : Int))) := by
  intro data offset length
  have hRead : ∀ l : Int, (binutil.Read data offset l = none ↔
      ¬(0 ≤ offset ∧ 0 ≤ l ∧ offset + l ≤ (data.length : Int))) := by
    intro l
    rw [binutil.Read, goSlice_eq_none_iff]
    constructor <;> intro h hc <;> exact h (by omega)
  refine ⟨hRead length, ?_, rfl, ?_, ?_, ?_, ?_, ?_⟩
  · intro l hl
    unfold binutil.Read goSlice at hl
    split at hl
    · rename_i hc
      injection hl with hl
      rw [← hl]
      congr 1
      omega
    · exact absurd hl (by simp)
  · unfold binutil.Byte
    rw [Option.map_eq_none', hRead 1]
    constructor <;> intro h hc <;> exact h (by omega)
  · unfold binutil.Uint16
    rw [Option.map_eq_none', hRead 2]
    constructor <;> intro h hc <;> exact h (by omega)
  · unfold binutil.Uint32
    rw [Option.map_eq_none', hRead 4]
    constructor <;> intro h hc <;> exact h (by omega)
  · unfold binutil.Uint64
    rw [Option.map_eq_none', hRead 8]
    constructor <;> intro h hc <;> exact h (by omega)
  · rw [binutil.ReadFrom, goSlice_eq_none_iff]
    constructor <;> intro h hc <;> exact h (by omega)

/-- C6 witness: the in-bounds clause instantiated at a concrete read. -/
theorem c6_binReader_bounds_panic_witness :
    ([7, 9] : List Nat) = (([7, 9] : List Nat).drop (0 : Int).toNat).take (2 : Int).toNat :=
  (c6_binReader_bounds_panic [7, 9] 0 2).2.1 [7, 9] (by decide)

/-- C6 counterexample: out-of-range operations panic (`none`); no
`BoundsExceeded` error value is ever produced, so the claim that they fail by
returning a `BoundsExceeded` error is false. -/
theorem c6_counterexample :
    binutil.Read [0, 1] 1 4 = none ∧ binutil.Uint16 [5] 0 = none ∧
    binutil.Byte ([] : List Nat) 0 = none ∧ binutil.Uint32 [1, 2, 3] 0 = none ∧
    binutil.Uint64 [0, 0, 0, 0, 0, 0, 0] 0 = none ∧
    binutil.Reader [0, 1] 0 3 = none ∧ binutil.ReadFrom [0, 1] 3 = none := by
  decide

/-! Claim C1: extension of sub-8-byte unsigned fields. -/

/-- C1 counterexample: on the 8-byte input whose record-number field has the
top bit of its most significant byte set, `ParseFileReference` returns the
sign-extended value `0xFFFF800000000000`, not the zero-extended little-endian
value `0x800000000000` of the lower 6 bytes. -/
theorem c1_counterexample :
    mft.ParseFileReference [0, 0, 0, 0, 0, 128, 0, 0] =
      .ok { RecordNumber := 18446603336221196288, SequenceNumber := 0 } ∧
    leUint [0, 0, 0, 0, 0, 128] = 140737488355328 ∧
    (18446603336221196288 : Nat) ≠ 140737488355328 := by
  decide

/-- C1 (amended): `padTo` sign-extends, so `ParseFileReference` zero-extends
the 6-byte record number exactly when the top bit of byte 5 is clear and
otherwise adds `0xFFFF << 48`; likewise `ParseDataRuns` zero-pads a run length
only when the top bit of its most significant byte is clear — the run
`01 80` decodes to `LengthInClusters = 2^64 - 128`, not `128`. -/
theorem c1_signExtension :
    (∀ b0 b1 b2 b3 b4 b5 b6 b7 : Nat,
      mft.ParseFileReference [b0, b1, b2, b3, b4, b5, b6, b7] =
        .ok { RecordNumber := leUint [b0, b1, b2, b3, b4, b5] +
                (if b5.testBit 7 then 0xFFFF * 2 ^ 48 else 0),
              SequenceNumber := leUint [b6, b7] }) ∧
    mft.ParseDataRuns [0x01, 0x80, 0x00] =
      .ok [{ OffsetCluster := 0, LengthInClusters := 2 ^ 64 - 128 }] ∧
    (2 ^ 64 - 128 : Nat) ≠ leUint [0x80] := by
  refine ⟨?_, by decide, by decide⟩
  intro b0 b1 b2 b3 b4 b5 b6 b7
  have htake : [b0, b1, b2, b3, b4, b5, b6, b7].take 6 = [b0, b1, b2, b3, b4, b5] := rfl
  have hdrop : ([b0, b1, b2, b3, b4, b5, b6, b7].drop 6).take 2 = [b6, b7] := rfl
  have hpad : mft.padTo [b0, b1, b2, b3, b4, b5] 8 =
      [b0, b1, b2, b3, b4, b5] ++
        List.replicate 2 (if b5.testBit 7 then 0xFF else 0) := by
    unfold mft.padTo
    rw [if_neg (by simp)]
    rfl
  unfold mft.ParseFileReference
  rw [if_neg (by simp), htake, hdrop, hpad,
    List.take_of_length_le (by simp), leUint_append]
  simp only [mft.Res.ok.injEq, mft.FileReference.mk.injEq, and_true]
  by_cases h : b5.testBit 7 <;>
    simp only [h, if_true, if_false, List.length_cons, List.length_nil,
      List.replicate, leUint] <;>
    norm_num

/-! Claim C3: the run-to-fragment mapping. -/

theorem dataRunsToFragmentsLoop_length (bpc : Int) :
    ∀ (runs : List mft.DataRun) (prev : Int),
      (mft.dataRunsToFragmentsLoop bpc prev runs).length = runs.length := by
  intro runs
  induction runs with
  | nil => intro prev; rfl
  | cons r rest ih => intro prev; simp [mft.dataRunsToFragmentsLoop, ih]

theorem dataRunsToFragmentsLoop_sum (bpc : Int) :
    ∀ (runs : List mft.DataRun) (prev : Int),
      ((mft.dataRunsToFragmentsLoop bpc prev runs).map fragment.Fragment.Length).sum ≡
        bpc * ((runs.map fun r => (r.LengthInClusters : Int)).sum) [ZMOD 2 ^ 64] := by
  intro runs
  induction runs with
  | nil => intro prev; simp [mft.dataRunsToFragmentsLoop]
  | cons r rest ih =>
    intro prev
    simp only [mft.dataRunsToFragmentsLoop, List.map_cons, List.sum_cons]
    have h1 : wrap64 (toInt64 r.LengthInClusters * bpc) ≡
        bpc * (r.LengthInClusters : Int) [ZMOD 2 ^ 64] := by
      have := (wrap64_modEq (toInt64 r.LengthInClusters * bpc)).trans
        ((toInt64_modEq r.LengthInClusters).mul_right bpc)
      calc wrap64 (toInt64 r.LengthInClusters * bpc)
          ≡ (r.LengthInClusters : Int) * bpc [ZMOD 2 ^ 64] := this
        _ = bpc * (r.LengthInClusters : Int) := mul_comm _ _
    have h2 := ih (wrap64 (prev + r.OffsetCluster))
    have := h1.add h2
    calc wrap64 (toInt64 r.LengthInClusters * bpc) +
          ((mft.dataRunsToFragmentsLoop bpc (wrap64 (prev + r.OffsetCluster)) rest).map
            fragment.Fragment.Length).sum
        ≡ bpc * (r.LengthInClusters : Int) +
            bpc * ((rest.map fun r => (r.LengthInClusters : Int)).sum) [ZMOD 2 ^ 64] := this
      _ = bpc * ((r.LengthInClusters : Int) +
            (rest.map fun r => (r.LengthInClusters : Int)).sum) := by ring

theorem dataRunsToFragmentsLoop_offset (bpc : Int) :
    ∀ (runs : List mft.DataRun) (prev : Int) (i : Nat), i < runs.length →
      ((mft.dataRunsToFragmentsLoop bpc prev runs).getD i ⟨0, 0⟩).Offset ≡
        bpc * (prev + (((runs.take (i + 1)).map mft.DataRun.OffsetCluster).sum))
          [ZMOD 2 ^ 64] := by
  intro runs
  induction runs with
  | nil => intro prev i h; simp at h
  | cons r rest ih =>
    intro prev i h
    cases i with
    | zero =>
      simp only [mft.dataRunsToFragmentsLoop, List.getD_cons_zero, List.take_succ_cons,
        List.take_zero, List.map_cons, List.map_nil, List.sum_cons, List.sum_nil, add_zero]
      have h1 : wrap64 (wrap64 (prev + r.OffsetCluster) * bpc) ≡
          (prev + r.OffsetCluster) * bpc [ZMOD 2 ^ 64] :=
        (wrap64_modEq _).trans ((wrap64_modEq (prev + r.OffsetCluster)).mul_right bpc)
      calc wrap64 (wrap64 (prev + r.OffsetCluster) * bpc)
          ≡ (prev + r.OffsetCluster) * bpc [ZMOD 2 ^ 64] := h1
        _ = bpc * (prev + r.OffsetCluster) := mul_comm _ _
    | succ j =>
      simp only [mft.dataRunsToFragmentsLoop, List.getD_cons_succ, List.take_succ_cons,
        List.map_cons, List.sum_cons]
      have hj : j < rest.length := by simpa using h
      have h2 := ih (wrap64 (prev + r.OffsetCluster)) j hj
      have h3 : bpc * (wrap64 (prev + r.OffsetCluster) +
            ((rest.take (j + 1)).map mft.DataRun.OffsetCluster).sum) ≡
          bpc * (prev + (r.OffsetCluster +
            ((rest.take (j + 1)).map mft.DataRun.OffsetCluster).sum)) [ZMOD 2 ^ 64] := by
        have h4 := (wrap64_modEq (prev + r.OffsetCluster)).add_right
          (((rest.take (j + 1)).map mft.DataRun.OffsetCluster).sum)
        have h5 := h4.mul_left bpc
        calc bpc * (wrap64 (prev + r.OffsetCluster) +
              ((rest.take (j + 1)).map mft.DataRun.OffsetCluster).sum)
            ≡ bpc * (prev + r.OffsetCluster +
              ((rest.take (j + 1)).map mft.DataRun.OffsetCluster).sum) [ZMOD 2 ^ 64] := h5
          _ = bpc * (prev + (r.OffsetCluster +
              ((rest.take (j + 1)).map mft.DataRun.OffsetCluster).sum)) := by ring
      exact h2.trans h3

/-- C3 counterexample: with the run list `[{0, 2^63}]` and bpc = 512 the Go
`int64` arithmetic wraps (`int64(2^63) = -2^63`, and `-2^63 * 512` wraps to
0), so the total fragment length is 0 and not `bpc × ΣLengthInClusters =
512 × 2^63`. -/
theorem c3_counterexample :
    mft.DataRunsToFragments [{ OffsetCluster := 0, LengthInClusters := 2 ^ 63 }] 512 =
      [{ Offset := 0, Length := 0 }] ∧
    ((mft.DataRunsToFragments [{ OffsetCluster := 0, LengthInClusters := 2 ^ 63 }] 512).map
        fragment.Fragment.Length).sum ≠
      512 * (((2 : Nat) ^ 63 : Nat) : Int) ∧
    (0 : Int) < 512 := by
  refine ⟨by decide, by decide, by decide⟩

/-- C3 (amended): `DataRunsToFragments` preserves the list length, and the
three equations of the claim — total length, first offset, and the
offset-recurrence — hold modulo 2^64 for every run list and positive
bytes-per-cluster; they are exact whenever no intermediate `int64` value
overflows (wrapping is the only deviation, witnessed by the counterexample). -/
theorem c3_fragment_recurrence :
    ∀ (runs : List mft.DataRun) (bpc : Int), 0 < bpc →
      (mft.DataRunsToFragments runs bpc).length = runs.length ∧
      (((mft.DataRunsToFragments runs bpc).map fragment.Fragment.Length).sum ≡
        bpc * ((runs.map fun r => (r.LengthInClusters : Int)).sum) [ZMOD 2 ^ 64]) ∧
      (0 < runs.length →
        ((mft.DataRunsToFragments runs bpc).getD 0 ⟨0, 0⟩).Offset ≡
          bpc * ((runs.getD 0 ⟨0, 0⟩).OffsetCluster) [ZMOD 2 ^ 64]) ∧
      (∀ i, i + 1 < runs.length →
        ((mft.DataRunsToFragments runs bpc).getD (i + 1) ⟨0, 0⟩).Offset ≡
          ((mft.DataRunsToFragments runs bpc).getD i ⟨0, 0⟩).Offset +
            bpc * ((runs.getD (i + 1) ⟨0, 0⟩).OffsetCluster) [ZMOD 2 ^ 64]) := by
  intro runs bpc _
  refine ⟨dataRunsToFragmentsLoop_length bpc runs 0, dataRunsToFragmentsLoop_sum bpc runs 0,
    ?_, ?_⟩
  · intro hpos
    have h := dataRunsToFragmentsLoop_offset bpc runs 0 0 hpos
    have htake : ((runs.take 1).map mft.DataRun.OffsetCluster).sum =
        (runs.getD 0 ⟨0, 0⟩).OffsetCluster := by
      cases runs with
      | nil => simp at hpos
      | cons r rest => simp
    rw [htake, zero_add] at h
    exact h
  · intro i hi
    have hsumsucc : ∀ (k : Nat), k < runs.length →
        ((runs.take (k + 1)).map mft.DataRun.OffsetCluster).sum =
          ((runs.map mft.DataRun.OffsetCluster).take (k + 1)).sum := by
      intro k _
      rw [List.map_take]
    have h1 := dataRunsToFragmentsLoop_offset bpc runs 0 (i + 1) hi
    have h2 := dataRunsToFragmentsLoop_offset bpc runs 0 i (by omega)
    rw [hsumsucc (i + 1) hi, zero_add] at h1
    rw [hsumsucc i (by omega), zero_add] at h2
    have hstep : ((runs.map mft.DataRun.OffsetCluster).take (i + 1 + 1)).sum =
        ((runs.map mft.DataRun.OffsetCluster).take (i + 1)).sum +
          (runs.getD (i + 1) ⟨0, 0⟩).OffsetCluster := by
      have hlen : i + 1 < (runs.map mft.DataRun.OffsetCluster).length := by
        simpa using hi
      rw [sum_take_succ_getD _ _ hlen]
      congr 1
      rw [List.getD_eq_getElem?_getD, List.getD_eq_getElem?_getD, List.getElem?_map]
      have : runs[i+1]? = some (runs.getD (i + 1) ⟨0, 0⟩) := by
        rw [List.getD_eq_getElem?_getD]
        cases hx : runs[i+1]? with
        | none => rw [List.getElem?_eq_none_iff] at hx; omega
        | some v => rfl
      rw [this]
      rfl
    rw [hstep] at h1
    have h1' : ((mft.DataRunsToFragments runs bpc).getD (i + 1) ⟨0, 0⟩).Offset ≡
        bpc * ((runs.map mft.DataRun.OffsetCluster).take (i + 1)).sum +
          bpc * (runs.getD (i + 1) ⟨0, 0⟩).OffsetCluster [ZMOD 2 ^ 64] := by
      calc ((mft.DataRunsToFragments runs bpc).getD (i + 1) ⟨0, 0⟩).Offset
          ≡ bpc * (((runs.map mft.DataRun.OffsetCluster).take (i + 1)).sum +
            (runs.getD (i + 1) ⟨0, 0⟩).OffsetCluster) [ZMOD 2 ^ 64] := h1
        _ = bpc * ((runs.map mft.DataRun.OffsetCluster).take (i + 1)).sum +
            bpc * (runs.getD (i + 1) ⟨0, 0⟩).OffsetCluster := by ring
    exact h1'.trans ((h2.symm.add_right _))

/-- C3 witness: the amended theorem instantiated at the spec's example runs
`[{+5521,1337},{−4408,42},{+7708,13}]` with bpc = 512. -/
theorem c3_fragment_recurrence_witness :
    (mft.DataRunsToFragments [⟨5521, 1337⟩, ⟨-4408, 42⟩, ⟨7708, 13⟩] 512).length = 3 ∧
    ((mft.DataRunsToFragments [⟨5521, 1337⟩, ⟨-4408, 42⟩, ⟨7708, 13⟩] 512).getD 0
        ⟨0, 0⟩).Offset ≡ 512 * (5521 : Int) [ZMOD 2 ^ 64] ∧
    ((mft.DataRunsToFragments [⟨5521, 1337⟩, ⟨-4408, 42⟩, ⟨7708, 13⟩] 512).getD 1
        ⟨0, 0⟩).Offset ≡
      ((mft.DataRunsToFragments [⟨5521, 1337⟩, ⟨-4408, 42⟩, ⟨7708, 13⟩] 512).getD 0
          ⟨0, 0⟩).Offset + 512 * (-4408 : Int) [ZMOD 2 ^ 64] := by
  have h := c3_fragment_recurrence [⟨5521, 1337⟩, ⟨-4408, 42⟩, ⟨7708, 13⟩] 512 (by norm_num)
  refine ⟨by simpa using h.1, ?_, ?_⟩
  · have := h.2.2.1 (by norm_num)
    simpa using this
  · have := h.2.2.2 0 (by norm_num)
    simpa using this

/-! Claim C9: the signed/exponent dual encoding in the boot sector. -/

namespace binutil

theorem Read_someI (data : List Nat) (o l : Int) (ho : 0 ≤ o) (hl : 0 ≤ l)
    (h : o + l ≤ (data.length : Int)) :
    Read data o l = some ((data.drop o.toNat).take l.toNat) := by
  have hx := Read_some data o.toNat l.toNat (by omega)
  rwa [Int.toNat_of_nonneg ho, Int.toNat_of_nonneg hl] at hx

theorem Byte_someI (data : List Nat) (o : Int) (ho : 0 ≤ o)
    (h : o + 1 ≤ (data.length : Int)) :
    Byte data o = some (data.getD o.toNat 0) := by
  have hx := Byte_some data o.toNat (by omega)
  rwa [Int.toNat_of_nonneg ho] at hx

theorem Uint16_someI (data : List Nat) (o : Int) (ho : 0 ≤ o)
    (h : o + 2 ≤ (data.length : Int)) :
    Uint16 data o = some (leUint ((data.drop o.toNat).take 2)) := by
  have hx := Uint16_some data o.toNat (by omega)
  rwa [Int.toNat_of_nonneg ho] at hx

theorem Uint32_someI (data : List Nat) (o : Int) (ho : 0 ≤ o)
    (h : o + 4 ≤ (data.length : Int)) :
    Uint32 data o = some (leUint ((data.drop o.toNat).take 4)) := by
  have hx := Uint32_some data o.toNat (by omega)
  rwa [Int.toNat_of_nonneg ho] at hx

theorem Uint64_someI (data : List Nat) (o : Int) (ho : 0 ≤ o)
    (h : o + 8 ≤ (data.length : Int)) :
    Uint64 data o = some (leUint ((data.drop o.toNat).take 8)) := by
  have hx := Uint64_some data o.toNat (by omega)
  rwa [Int.toNat_of_nonneg ho] at hx

theorem ReadFrom_someI (data : List Nat) (o : Int) (ho : 0 ≤ o)
    (h : o ≤ (data.length : Int)) :
    ReadFrom data o = some (data.drop o.toNat) := by
  have hx := ReadFrom_some data o.toNat (by omega)
  rwa [Int.toNat_of_nonneg ho] at hx

end binutil

/-- The field values `ParseReads` produces on any input of at least 80 bytes
(established by `bootsect_ParseReads_eq`). -/
def bootSectorFields (data : List Nat) : bootsect.BootSector :=
  { OemId := (data.drop 3).take 8
    BytesPerSector := leUint ((data.drop 0x0B).take 2)
    SectorsPerCluster := bootsect.sectorsPerClusterOf data
    MediaDescriptor := data.getD 0x15 0
    SectorsPerTrack := leUint ((data.drop 0x18).take 2)
    NumberofHeads := leUint ((data.drop 0x1A).take 2)
    HiddenSectors := leUint ((data.drop 0x1C).take 2)
    TotalSectors := leUint ((data.drop 0x28).take 8)
    MftClusterNumber := leUint ((data.drop 0x30).take 8)
    MftMirrorClusterNumber := leUint ((data.drop 0x38).take 8)
    FileRecordSegmentSizeInBytes :=
      bootsect.bytesOrClustersToBytes (data.getD 0x40 0) (bootsect.bytesPerClusterOf data)
    IndexBufferSizeInBytes :=
      bootsect.bytesOrClustersToBytes (data.getD 0x44 0) (bootsect.bytesPerClusterOf data)
    VolumeSerialNumber := (data.drop 0x48).take 8 }

theorem bootsect_ParseReads_eq (data : List Nat) (h : 80 ≤ data.length) :
    bootsect.ParseReads data = some (bootSectorFields data) := by
  unfold bootSectorFields
  unfold bootsect.ParseReads
  rw [binutil.Read_someI data 0x03 8 (by norm_num) (by norm_num) (by omega),
    binutil.Uint16_someI data 0x0B (by norm_num) (by omega),
    binutil.Byte_someI data 0x0D (by norm_num) (by omega),
    binutil.Byte_someI data 0x15 (by norm_num) (by omega),
    binutil.Uint16_someI data 0x18 (by norm_num) (by omega),
    binutil.Uint16_someI data 0x1A (by norm_num) (by omega),
    binutil.Uint16_someI data 0x1C (by norm_num) (by omega),
    binutil.Uint64_someI data 0x28 (by norm_num) (by omega),
    binutil.Uint64_someI data 0x30 (by norm_num) (by omega),
    binutil.Uint64_someI data 0x38 (by norm_num) (by omega),
    binutil.Byte_someI data 0x40 (by norm_num) (by omega),
    binutil.Byte_someI data 0x44 (by norm_num) (by omega),
    binutil.Read_someI data 0x48 8 (by norm_num) (by norm_num) (by omega)]
  simp only [Option.bind_some, Option.some_bind, bind, Option.bind]
  rfl

/-- The 80-byte boot sector used to exercise the exponent encoding at byte
value 0x80: OEM id `NTFS    `, 512-byte sectors, 8 sectors per cluster, and
file-record-segment size byte 0x80 (as signed int8: −128). -/
def bootDemo : List Nat :=
  [0, 0, 0, 78, 84, 70, 83, 32, 32, 32, 32, 0, 2, 8, 0, 0,
   0, 0, 0, 0, 0, 0, 0, 0, 0, 0, 0, 0, 0, 0, 0, 0,
   0, 0, 0, 0, 0, 0, 0, 0, 0, 0, 0, 0, 0, 0, 0, 0,
   0, 0, 0, 0, 0, 0, 0, 0, 0, 0, 0, 0, 0, 0, 0, 0,
   0x80, 0, 0, 0, 0, 0, 0, 0, 0, 0, 0, 0, 0, 0, 0, 0]

set_option maxRecDepth 4000 in
/-- C9 counterexample: the claim says a negative size byte B yields `2^(−B)`
bytes for every byte; but the Go shift is computed in a 64-bit `int`, so for
B = 0x80 (int8 value −128) `1 << 128` truncates to 0 and `Parse` reports a
file-record-segment size of 0 bytes, not `2^128`. -/
theorem c9_counterexample :
    bootsect.Parse bootDemo =
      .ok { OemId := [78, 84, 70, 83, 32, 32, 32, 32]
            BytesPerSector := 512
            SectorsPerCluster := 8
            MediaDescriptor := 0
            SectorsPerTrack := 0
            NumberofHeads := 0
            HiddenSectors := 0
            TotalSectors := 0
            MftClusterNumber := 0
            MftMirrorClusterNumber := 0
            FileRecordSegmentSizeInBytes := 0
            IndexBufferSizeInBytes := 0
            VolumeSerialNumber := [0, 0, 0, 0, 0, 0, 0, 0] } ∧
    int8 0x80 = -128 ∧ (0 : Int) ≠ 2 ^ 128 := by
  refine ⟨by decide, by decide, by decide⟩

/-- C9 (amended): `Parse` resolves the size bytes at 0x40/0x44 and the
sectors-per-cluster byte at 0x0D through the signed/exponent dual encoding:
non-negative B gives `B × BytesPerCluster` (wrapped 64-bit product) and
negative B gives `1 << −B` computed in a 64-bit `int` — equal to `2^(−B)`
exactly when `−B ≤ 62`.  Byte 0xF6 resolves to 1024 bytes and byte 0x01 with
4096-byte clusters to 4096 bytes. -/
theorem c9_bootSector_exponent_encoding :
    (∀ (b : Nat) (bpc : Int), 0 ≤ int8 b →
      bootsect.bytesOrClustersToBytes b bpc = wrap64 (int8 b * bpc)) ∧
    (∀ (b : Nat) (bpc : Int), int8 b < 0 →
      bootsect.bytesOrClustersToBytes b bpc = wrap64 (2 ^ (-(int8 b)).toNat)) ∧
    (∀ (b : Nat) (bpc : Int), int8 b < 0 → -(int8 b) ≤ 62 →
      bootsect.bytesOrClustersToBytes b bpc = 2 ^ (-(int8 b)).toNat) ∧
    bootsect.bytesOrClustersToBytes 0xF6 4096 = 1024 ∧
    bootsect.bytesOrClustersToBytes 0x01 4096 = 4096 ∧
    (∀ data : List Nat, 80 ≤ data.length →
      ∃ s, bootsect.Parse data = .ok s ∧
        s.FileRecordSegmentSizeInBytes =
          bootsect.bytesOrClustersToBytes (data.getD 0x40 0) (bootsect.bytesPerClusterOf data) ∧
        s.IndexBufferSizeInBytes =
          bootsect.bytesOrClustersToBytes (data.getD 0x44 0) (bootsect.bytesPerClusterOf data) ∧
        s.SectorsPerCluster = bootsect.sectorsPerClusterOf data ∧
        (int8 (data.getD 0x0D 0) < 0 →
          s.SectorsPerCluster = wrap64 (2 ^ (-(int8 (data.getD 0x0D 0))).toNat))) := by
  refine ⟨?_, ?_, ?_, by decide, by decide, ?_⟩
  · intro b bpc hb
    unfold bootsect.bytesOrClustersToBytes
    rw [if_neg (by omega)]
  · intro b bpc hb
    unfold bootsect.bytesOrClustersToBytes
    rw [if_pos hb]
  · intro b bpc hb hb62
    unfold bootsect.bytesOrClustersToBytes
    rw [if_pos hb]
    have hle : (2 : Int) ^ (-(int8 b)).toNat ≤ 2 ^ 62 := by
      apply pow_le_pow_right₀ (by norm_num)
      omega
    unfold wrap64
    have hb1 : (0 : Int) ≤ 2 ^ (-(int8 b)).toNat + 2 ^ 63 := by positivity
    have hb2 : (2 : Int) ^ (-(int8 b)).toNat + 2 ^ 63 < 2 ^ 64 := by
      calc (2 : Int) ^ (-(int8 b)).toNat + 2 ^ 63 ≤ 2 ^ 62 + 2 ^ 63 := by linarith
        _ < 2 ^ 64 := by norm_num
    rw [Int.emod_eq_of_lt hb1 hb2]
    ring
  · intro data h
    refine ⟨bootSectorFields data, ?_, rfl, rfl, rfl, ?_⟩
    · unfold bootsect.Parse
      rw [if_neg (by omega), bootsect_ParseReads_eq data h]
    · intro hneg
      show bootsect.sectorsPerClusterOf data = _
      unfold bootsect.sectorsPerClusterOf
      rw [if_pos hneg]

/-- C9 witness: the amended theorem instantiated at the demo boot sector and
at the spec's example bytes. -/
theorem c9_bootSector_exponent_encoding_witness :
    bootsect.bytesOrClustersToBytes 0xF6 4096 = 2 ^ (-(int8 0xF6)).toNat ∧
    bootsect.bytesOrClustersToBytes 0x01 4096 = wrap64 (int8 0x01 * 4096) ∧
    ∃ s, bootsect.Parse bootDemo = .ok s ∧
      s.FileRecordSegmentSizeInBytes =
        bootsect.bytesOrClustersToBytes (bootDemo.getD 0x40 0)
          (bootsect.bytesPerClusterOf bootDemo) ∧
      s.IndexBufferSizeInBytes =
        bootsect.bytesOrClustersToBytes (bootDemo.getD 0x44 0)
          (bootsect.bytesPerClusterOf bootDemo) ∧
      s.SectorsPerCluster = bootsect.sectorsPerClusterOf bootDemo ∧
      (int8 (bootDemo.getD 0x0D 0) < 0 →
        s.SectorsPerCluster = wrap64 (2 ^ (-(int8 (bootDemo.getD 0x0D 0))).toNat)) := by
  have h := c9_bootSector_exponent_encoding
  exact ⟨h.2.2.1 0xF6 4096 (by decide) (by decide),
    h.1 0x01 4096 (by decide),
    h.2.2.2.2.2 bootDemo (by decide)⟩

/-! Claims C5 and C7: error returns of the stream decoders and panic safety. -/

theorem parseAttributesLoop_fail_none :
    ∀ (fuel : Nat) (b : List Nat) (acc : List mft.Attribute)
      (part : Option (List mft.Attribute)) (e : mft.Err),
      mft.parseAttributesLoop fuel b acc = .fail part e → part = none := by
  intro fuel
  induction fuel with
  | zero =>
    intro b acc part e h
    cases b with
    | nil => simp [mft.parseAttributesLoop] at h
    | cons x xs => simp [mft.parseAttributesLoop] at h
  | succ n ih =>
    intro b acc part e h
    cases b with
    | nil => simp [mft.parseAttributesLoop] at h
    | cons x xs =>
      simp only [mft.parseAttributesLoop] at h
      repeat' split at h
      all_goals
        first
        | exact ih _ _ _ _ h
        | (injection h with h1 h2; exact h1.symm)
        | cases h

theorem parseDataRunsLoop_fail_none :
    ∀ (fuel : Nat) (b : List Nat) (acc : List mft.DataRun)
      (part : Option (List mft.DataRun)) (e : mft.Err),
      mft.parseDataRunsLoop fuel b acc = .fail part e → part = none := by
  intro fuel
  induction fuel with
  | zero =>
    intro b acc part e h
    cases b with
    | nil => simp [mft.parseDataRunsLoop] at h
    | cons x xs => simp [mft.parseDataRunsLoop] at h
  | succ n ih =>
    intro b acc part e h
    cases b with
    | nil => simp [mft.parseDataRunsLoop] at h
    | cons x xs =>
      simp only [mft.parseDataRunsLoop] at h
      repeat' split at h
      all_goals
        first
        | exact ih _ _ _ _ h
        | (injection h with h1 h2; exact h1.symm)
        | cases h

/-- A minimal well-formed 24-byte resident attribute record: type 0x10,
record length 24, resident, no name, empty payload. -/
def attr24Demo : List Nat := [16, 0, 0, 0, 24, 0, 0, 0] ++ List.replicate 16 0

/-- The attribute `ParseAttribute` decodes from `attr24Demo`. -/
def demoAttribute : mft.Attribute :=
  { Type' := 16, Resident := true, Name := [], Flags := 0, AttributeId := 0,
    AllocatedSize := 0, ActualSize := 0, Data := [] }

/-- C5 counterexample: on `attr24Demo ++ [1, 2]` the walk decodes one
attribute and then meets a malformed 2-byte element; the claim says the
partial list `[demoAttribute]` is returned with the error, but the code
returns a nil slice (`none`). -/
theorem c5_counterexample :
    mft.ParseAttributes (attr24Demo ++ [1, 2]) = .fail none .attrHeaderTooShort ∧
    mft.ParseAttributes attr24Demo = .ok [demoAttribute] ∧
    (none : Option (List mft.Attribute)) ≠ some [demoAttribute] := by
  refine ⟨by decide, by decide, by decide⟩

/-- C5 (amended): `ParseAttributes` and `ParseDataRuns` terminate the walk on
a malformed element but discard the elements decoded so far: every error
return carries a nil slice (`none`), never the partial list. -/
theorem c5_error_discards_partial :
    (∀ (b : List Nat) (part : Option (List mft.Attribute)) (e : mft.Err),
      mft.ParseAttributes b = .fail part e → part = none) ∧
    (∀ (b : List Nat) (part : Option (List mft.DataRun)) (e : mft.Err),
      mft.ParseDataRuns b = .fail part e → part = none) := by
  constructor
  · intro b part e h
    unfold mft.ParseAttributes at h
    split at h
    · cases h
    · exact parseAttributesLoop_fail_none _ _ _ _ _ h
  · intro b part e h
    unfold mft.ParseDataRuns at h
    split at h
    · cases h
    · exact parseDataRunsLoop_fail_none _ _ _ _ _ h

/-- C5 witness: the amended theorem applied at a concrete malformed input. -/
theorem c5_error_discards_partial_witness :
    (none : Option (List mft.Attribute)) = none :=
  c5_error_discards_partial.1 [1] none .attrHeaderTooShort (by decide)

theorem parseDataRunsLoop_ne_panic :
    ∀ (fuel : Nat) (b : List Nat) (acc : List mft.DataRun), b.length ≤ fuel →
      mft.parseDataRunsLoop fuel b acc ≠ .panic := by
  intro fuel
  induction fuel with
  | zero =>
    intro b acc hb
    cases b with
    | nil => simp [mft.parseDataRunsLoop]
    | cons x xs => simp at hb
  | succ n ih =>
    intro b acc hb
    cases b with
    | nil => simp [mft.parseDataRunsLoop]
    | cons x xs =>
      simp only [List.length_cons] at hb
      simp only [mft.parseDataRunsLoop]
      split
      · simp
      · split
        · simp
        · rename_i hne hlen
          have hddl : x >>> 4 + (x &&& 15) ≤ xs.length := by
            simp only [List.length_cons] at hlen
            omega
          have h1 : binutil.Reader (x :: xs) 1 ((x >>> 4 + (x &&& 15) : Nat) : Int) =
              some (xs.take (x >>> 4 + (x &&& 15))) := by
            unfold binutil.Reader
            have := binutil.Read_someI (x :: xs) 1 ((x >>> 4 + (x &&& 15) : Nat) : Int)
              (by norm_num) (by positivity)
              (by simp only [List.length_cons]; push_cast; omega)
            simpa using this
          have hslice : (xs.take (x >>> 4 + (x &&& 15))).length = x >>> 4 + (x &&& 15) := by
            simp only [List.length_take]
            omega
          have h2 : binutil.Read (xs.take (x >>> 4 + (x &&& 15))) 0 ((x &&& 15 : Nat) : Int) =
              some (((xs.take (x >>> 4 + (x &&& 15))).drop 0).take (x &&& 15)) := by
            have := binutil.Read_someI (xs.take (x >>> 4 + (x &&& 15))) 0
              ((x &&& 15 : Nat) : Int) (by norm_num) (by positivity)
              (by rw [hslice]; push_cast; omega)
            simpa using this
          have h3 : binutil.Read (xs.take (x >>> 4 + (x &&& 15)))
              ((x &&& 15 : Nat) : Int) ((x >>> 4 : Nat) : Int) =
              some (((xs.take (x >>> 4 + (x &&& 15))).drop (x &&& 15)).take (x >>> 4)) := by
            have := binutil.Read_someI (xs.take (x >>> 4 + (x &&& 15)))
              ((x &&& 15 : Nat) : Int) ((x >>> 4 : Nat) : Int) (by positivity) (by positivity)
              (by rw [hslice]; push_cast; omega)
            simpa using this
          simp only [List.drop_succ_cons, List.drop_zero, h1, h2, h3]
          apply ih
          simp only [List.length_drop, List.length_cons]
          omega

/-- `ParseDataRuns` never panics: all of its reads are guarded by the length
check of each iteration, and `b.length` iterations of fuel always suffice. -/
theorem ParseDataRuns_ne_panic (b : List Nat) : mft.ParseDataRuns b ≠ .panic := by
  unfold mft.ParseDataRuns
  split
  · simp
  · exact parseDataRunsLoop_ne_panic b.length b [] le_rfl

theorem bootsect_Parse_ne_panic (data : List Nat) : bootsect.Parse data ≠ .panic := by
  unfold bootsect.Parse
  split
  · simp
  · rename_i hlen
    rw [bootsect_ParseReads_eq data (by omega)]
    simp

/-- A 22-byte attribute record whose name length is 1 and name offset is 100:
the name read `Read(100, 2)` runs past the buffer. -/
def attrPanicDemo : List Nat :=
  [0, 0, 0, 0, 0, 0, 0, 0, 0, 1, 100, 0] ++ List.replicate 10 0

/-- C7 counterexample: `ParseAttribute` on a 22-byte input (meeting its
documented minimum) with an out-of-range name offset panics instead of
returning an error, so the decoders are not panic-free on adversarial
input. -/
theorem c7_counterexample :
    mft.ParseAttribute attrPanicDemo = .panic ∧ attrPanicDemo.length = 22 := by
  refine ⟨by decide, by decide⟩

/-- C7 (amended): every decoder rejects an input shorter than its documented
minimum with its malformed-structure error and does not panic there, and
`ParseDataRuns` and `bootsect.Parse` never panic on any input; but
`ParseAttribute` (and hence `ParseAttributes` and `ParseRecord`, which embed
it) can panic on adversarial inputs that meet the minimum length yet carry an
out-of-range internal offset, as the counterexample shows. -/
theorem c7_bounds_safety :
    (∀ b : List Nat, b.length < 42 → mft.ParseRecord b = .err .recordTooShort) ∧
    (∀ b : List Nat, b.length < 22 → mft.ParseAttribute b = .err .attrTooShort) ∧
    (∀ b : List Nat, b.length < 80 → bootsect.Parse b = .err .bootSectorTooShort) ∧
    (∀ b : List Nat, mft.ParseDataRuns b ≠ .panic) ∧
    (∀ b : List Nat, bootsect.Parse b ≠ .panic) ∧
    mft.ParseAttribute attrPanicDemo = .panic := by
  refine ⟨?_, ?_, ?_, ParseDataRuns_ne_panic, bootsect_Parse_ne_panic, by decide⟩
  · intro b h
    unfold mft.ParseRecord
    rw [if_pos h]
  · intro b h
    unfold mft.ParseAttribute
    rw [if_pos h]
  · intro b h
    unfold bootsect.Parse
    rw [if_pos h]

/-- C7 witness: the amended theorem applied at concrete short inputs. -/
theorem c7_bounds_safety_witness :
    mft.ParseRecord [70, 73, 76, 69] = .err .recordTooShort ∧
    mft.ParseAttribute [0, 0, 0, 0] = .err .attrTooShort ∧
    bootsect.Parse [0] = .err .bootSectorTooShort :=
  ⟨c7_bounds_safety.1 [70, 73, 76, 69] (by decide),
   c7_bounds_safety.2.1 [0, 0, 0, 0] (by decide),
   c7_bounds_safety.2.2.1 [0] (by decide)⟩

/-! Claim C4: the fix-up procedure. -/

theorem getD_set_ne (l : List Nat) (m j v : Nat) (h : m ≠ j) :
    (l.set m v).getD j 0 = l.getD j 0 := by
  rw [List.getD_eq_getElem?_getD, List.getD_eq_getElem?_getD, List.getElem?_set_ne h]

theorem getD_set_self (l : List Nat) (m v : Nat) (h : m < l.length) :
    (l.set m v).getD m 0 = v := by
  rw [List.getD_eq_getElem?_getD, List.getElem?_set_self h]
  rfl

theorem goSlice_sector (b : List Nat) (ss m : Nat) (h2 : 2 ≤ ss * m)
    (hle : ss * m ≤ b.length) :
    goSlice b ((ss : Int) * (m : Int) - 2) ((ss : Int) * (m : Int)) =
      some ((b.drop (ss * m - 2)).take 2) := by
  have e1 : ((ss : Int) * (m : Int) - 2) = ((ss * m - 2 : Nat) : Int) := by push_cast; omega
  have e2 : ((ss : Int) * (m : Int)) = ((ss * m : Nat) : Int) := by push_cast; ring
  have e3 : ss * m - (ss * m - 2) = 2 := by omega
  rw [e1, e2, goSlice_some_nat b (ss * m - 2) (ss * m) (by omega) hle, e3]

theorem checkSectors_all (b usn : List Nat) (ss : Nat) :
    ∀ (k i : Nat),
      (∀ m, i ≤ m → m < i + k → 2 ≤ ss * m ∧ ss * m ≤ b.length) →
      (∀ m, i ≤ m → m < i + k → (b.drop (ss * m - 2)).take 2 = usn) →
      mft.checkSectors b usn ss i k = some true := by
  intro k
  induction k with
  | zero => intro i _ _; rfl
  | succ n ih =>
    intro i hb hm
    have hbi := hb i le_rfl (by omega)
    unfold mft.checkSectors
    rw [goSlice_sector b ss i hbi.1 hbi.2, hm i le_rfl (by omega)]
    show (if usn ≠ usn then some false else mft.checkSectors b usn ss (i + 1) n) = some true
    rw [if_neg (by simp)]
    exact ih (i + 1) (fun m h1 h2 => hb m (by omega) (by omega))
      (fun m h1 h2 => hm m (by omega) (by omega))

theorem checkSectors_mismatch (b usn : List Nat) (ss : Nat) :
    ∀ (k i : Nat),
      (∀ m, i ≤ m → m < i + k → 2 ≤ ss * m ∧ ss * m ≤ b.length) →
      (∃ m, i ≤ m ∧ m < i + k ∧ (b.drop (ss * m - 2)).take 2 ≠ usn) →
      mft.checkSectors b usn ss i k = some false := by
  intro k
  induction k with
  | zero =>
    intro i _ hex
    obtain ⟨m, h1, h2, _⟩ := hex
    omega
  | succ n ih =>
    intro i hb hex
    have hbi := hb i le_rfl (by omega)
    unfold mft.checkSectors
    rw [goSlice_sector b ss i hbi.1 hbi.2]
    by_cases hcur : (b.drop (ss * i - 2)).take 2 = usn
    · rw [hcur]
      show (if usn ≠ usn then some false else mft.checkSectors b usn ss (i + 1) n) = some false
      rw [if_neg (by simp)]
      obtain ⟨m, h1, h2, h3⟩ := hex
      have hmne : i < m := by
        rcases Nat.lt_or_ge i m with h | h
        · exact h
        · exact absurd (by omega : m = i) (fun he => h3 (he ▸ hcur))
      exact ih (i + 1) (fun m h1 h2 => hb m (by omega) (by omega)) ⟨m, by omega, by omega, h3⟩
    · show (if usn ≠ (b.drop (ss * i - 2)).take 2 then some false
          else mft.checkSectors b usn ss (i + 1) n) = some false
      rw [if_pos (Ne.symm hcur)]

theorem patchSectors_length (usaStart ss : Nat) :
    ∀ (k : Nat) (b : List Nat) (i : Nat),
      (mft.patchSectors usaStart ss b i k).length = b.length := by
  intro k
  induction k with
  | zero => intro b i; rfl
  | succ n ih =>
    intro b i
    unfold mft.patchSectors
    rw [ih]
    simp

theorem patchSectors_untouched (usaStart ss : Nat) :
    ∀ (k : Nat) (b : List Nat) (i j : Nat),
      (∀ m, i ≤ m → m < i + k → 2 ≤ ss * m) →
      (∀ m, i ≤ m → m < i + k → j ≠ ss * m - 2 ∧ j ≠ ss * m - 1) →
      (mft.patchSectors usaStart ss b i k).getD j 0 = b.getD j 0 := by
  intro k
  induction k with
  | zero => intro b i j _ _; rfl
  | succ n ih =>
    intro b i j hb hj
    have hji := hj i le_rfl (by omega)
    have hbi := hb i le_rfl (by omega)
    unfold mft.patchSectors
    rw [ih _ (i + 1) j (fun m h1 h2 => hb m (by omega) (by omega))
      (fun m h1 h2 => hj m (by omega) (by omega))]
    rw [getD_set_ne _ _ _ _ (by omega), getD_set_ne _ _ _ _ (by omega)]

theorem patchSectors_pair (usaStart ss : Nat) (hss : 2 ≤ ss) :
    ∀ (k : Nat) (b : List Nat) (i : Nat),
      1 ≤ i →
      (∀ m, i ≤ m → m < i + k → ss * m ≤ b.length) →
      usaStart + 2 * (i + k - 1) ≤ ss * i - 2 →
      ∀ m, i ≤ m → m < i + k →
        (mft.patchSectors usaStart ss b i k).getD (ss * m - 2) 0 =
          b.getD (usaStart + 2 * (m - 1)) 0 ∧
        (mft.patchSectors usaStart ss b i k).getD (ss * m - 1) 0 =
          b.getD (usaStart + 2 * (m - 1) + 1) 0 := by
  intro k
  induction k with
  | zero => intro b i _ _ _ m h1 h2; omega
  | succ n ih =>
    intro b i hi hb husa m h1 h2
    have hmulsucc : ss * (i + 1) = ss * i + ss := by ring
    have hssi : 2 ≤ ss * i := by
      calc 2 ≤ ss := hss
        _ = ss * 1 := by ring
        _ ≤ ss * i := Nat.mul_le_mul_left ss hi
    have hlen : ss * i ≤ b.length := hb i le_rfl (by omega)
    have hstep : mft.patchSectors usaStart ss b i (n + 1) =
        mft.patchSectors usaStart ss
          ((b.set (ss * i - 2) (b.getD (usaStart + 2 * (i - 1)) 0)).set (ss * i - 2 + 1)
            (b.getD (usaStart + 2 * (i - 1) + 1) 0)) (i + 1) n := rfl
    rw [hstep]
    rcases Nat.eq_or_lt_of_le h1 with heq | hlt
    · subst heq
      constructor
      · rw [patchSectors_untouched usaStart ss n _ (i + 1) (ss * i - 2)
            (fun m1 hm1 hm2 => by
              have hmm : ss * (i + 1) ≤ ss * m1 := Nat.mul_le_mul_left ss hm1
              omega)
            (fun m1 hm1 hm2 => by
              have hmm : ss * (i + 1) ≤ ss * m1 := Nat.mul_le_mul_left ss hm1
              constructor <;> omega)]
        rw [getD_set_ne _ _ _ _ (by omega), getD_set_self _ _ _ (by omega)]
      · rw [patchSectors_untouched usaStart ss n _ (i + 1) (ss * i - 1)
            (fun m1 hm1 hm2 => by
              have hmm : ss * (i + 1) ≤ ss * m1 := Nat.mul_le_mul_left ss hm1
              omega)
            (fun m1 hm1 hm2 => by
              have hmm : ss * (i + 1) ≤ ss * m1 := Nat.mul_le_mul_left ss hm1
              constructor <;> omega)]
        have e1 : ss * i - 1 = ss * i - 2 + 1 := by omega
        rw [e1, getD_set_self _ _ _ (by simp; omega)]
    · -- m > i: the pair of sector m is written by the recursive call, and the
      -- update-sequence bytes it reads sit below every write position.
      have hrec := ih ((b.set (ss * i - 2) (b.getD (usaStart + 2 * (i - 1)) 0)).set
          (ss * i - 2 + 1) (b.getD (usaStart + 2 * (i - 1) + 1) 0)) (i + 1) (by omega)
        (fun m1 hm1 hm2 => by
          have := hb m1 (by omega) (by omega)
          simpa using this)
        (by omega)
        m (by omega) (by omega)
      have husa1 : usaStart + 2 * (m - 1) < ss * i - 2 := by omega
      have husa2 : usaStart + 2 * (m - 1) + 1 < ss * i - 2 := by omega
      rw [hrec.1, hrec.2, getD_set_ne _ _ _ _ (by omega), getD_set_ne _ _ _ _ (by omega),
        getD_set_ne _ _ _ _ (by omega), getD_set_ne _ _ _ _ (by omega)]
      exact ⟨rfl, rfl⟩

theorem applyFixUp_reduce (b : List Nat) (uso uss : Nat) (h2 : 2 ≤ uss)
    (hin : uso + 2 * uss ≤ b.length) :
    mft.applyFixUp b uso uss =
      match mft.checkSectors b ((b.drop uso).take 2) (b.length / (uss - 1)) 1 (uss - 1) with
      | none => .panic
      | some false => .err .fixUpMismatch
      | some true =>
          .ok (mft.patchSectors (uso + 2) (b.length / (uss - 1)) b 1 (uss - 1)) := by
  have hread : binutil.Read b (uso : Int) ((uss : Int) * 2) =
      some ((b.drop uso).take (uss * 2)) := by
    have hx := binutil.Read_someI b (uso : Int) ((uss : Int) * 2) (by positivity)
      (by positivity) (by push_cast; omega)
    have t1 : ((uso : Int)).toNat = uso := by omega
    have t2 : (((uss : Int)) * 2).toNat = uss * 2 := by omega
    rwa [t1, t2] at hx
  have hul : ((b.drop uso).take (uss * 2)).length = uss * 2 := by
    simp only [List.length_take, List.length_drop]
    omega
  have htt : ((b.drop uso).take (uss * 2)).take 2 = (b.drop uso).take 2 := by
    rw [List.take_take]
    congr 1
    omega
  have hsc : (uss * 2 - 2) / 2 = uss - 1 := by omega
  unfold mft.applyFixUp
  simp only [hread, hul, htt, hsc, Int.toNat_natCast]
  rw [if_neg (by omega), if_neg (by omega)]

/-- A 1024-byte record with a valid FILE signature, update sequence at offset
48 of size 3 (USN `02 00`, array `A1 B2 C3 D4`), first attribute offset 56
holding the 0xFFFFFFFF terminator, and `02 00` as the last two bytes of both
512-byte sectors. -/
def fixupDemoRecord : List Nat :=
  [70, 73, 76, 69, 48, 0, 3, 0] ++ List.replicate 12 0
    ++ [56, 0] ++ List.replicate 26 0
    ++ [2, 0, 161, 178, 195, 212] ++ [0, 0]
    ++ [255, 255, 255, 255] ++ List.replicate 450 0
    ++ [2, 0] ++ List.replicate 510 0 ++ [2, 0]

/-- The buffer `applyFixUp` produces from `fixupDemoRecord`. -/
def fixupDemoPatched : List Nat :=
  match mft.applyFixUp fixupDemoRecord 48 3 with
  | .ok r => r
  | _ => []

set_option maxRecDepth 20000 in
/-- C4: `applyFixUp` with the update-sequence offset and size from the header
verifies that each sector's last two bytes equal the USN, fails with the
fix-up mismatch error when any sector disagrees, and otherwise replaces those
two bytes of sector i with bytes (i−1)×2..i×2 of the update-sequence array,
leaving every other byte unchanged; on the spec's concrete 1024-byte record
the restored buffer carries `A1 B2` at 510–511 and `C3 D4` at 1022–1023 and
attribute parsing succeeds, while a record whose second sector's last two
bytes differ from the USN yields the mismatch error. -/
theorem c4_applyFixUp_spec :
    (∀ (b : List Nat) (uso uss : Nat),
      2 ≤ uss →
      uso + 2 * uss ≤ b.length →
      uso + 2 * uss + 2 ≤ b.length / (uss - 1) →
      ((∀ i, 1 ≤ i → i ≤ uss - 1 →
          (b.drop ((b.length / (uss - 1)) * i - 2)).take 2 = (b.drop uso).take 2) →
        ∃ r, mft.applyFixUp b uso uss = .ok r ∧
          r.length = b.length ∧
          (∀ i, 1 ≤ i → i ≤ uss - 1 →
            r.getD ((b.length / (uss - 1)) * i - 2) 0 = b.getD (uso + 2 + 2 * (i - 1)) 0 ∧
            r.getD ((b.length / (uss - 1)) * i - 1) 0 = b.getD (uso + 2 + 2 * (i - 1) + 1) 0) ∧
          (∀ j, j < b.length →
            (∀ i, 1 ≤ i → i ≤ uss - 1 →
              j ≠ (b.length / (uss - 1)) * i - 2 ∧ j ≠ (b.length / (uss - 1)) * i - 1) →
            r.getD j 0 = b.getD j 0)) ∧
      ((∃ i, 1 ≤ i ∧ i ≤ uss - 1 ∧
          (b.drop ((b.length / (uss - 1)) * i - 2)).take 2 ≠ (b.drop uso).take 2) →
        mft.applyFixUp b uso uss = .err .fixUpMismatch)) ∧
    mft.applyFixUp fixupDemoRecord 48 3 = .ok fixupDemoPatched ∧
    fixupDemoPatched.getD 510 0 = 0xA1 ∧ fixupDemoPatched.getD 511 0 = 0xB2 ∧
    fixupDemoPatched.getD 1022 0 = 0xC3 ∧ fixupDemoPatched.getD 1023 0 = 0xD4 ∧
    mft.ParseAttributes (fixupDemoPatched.drop 56) = .ok [] ∧
    mft.applyFixUp (fixupDemoRecord.set 1022 3) 48 3 = .err .fixUpMismatch := by
  refine ⟨?_, by decide, by decide, by decide, by decide, by decide, by decide, by decide⟩
  intro b uso uss h2 hin hss
  have hss2 : 2 ≤ b.length / (uss - 1) := by omega
  have hbound : ∀ m, 1 ≤ m → m < 1 + (uss - 1) →
      2 ≤ (b.length / (uss - 1)) * m ∧ (b.length / (uss - 1)) * m ≤ b.length := by
    intro m hm1 hm2
    constructor
    · calc 2 ≤ b.length / (uss - 1) := hss2
        _ = (b.length / (uss - 1)) * 1 := by ring
        _ ≤ (b.length / (uss - 1)) * m := Nat.mul_le_mul_left _ hm1
    · calc (b.length / (uss - 1)) * m ≤ (b.length / (uss - 1)) * (uss - 1) :=
          Nat.mul_le_mul_left _ (by omega)
        _ ≤ b.length := Nat.div_mul_le_self _ _
  constructor
  · intro hall
    have hcheck := checkSectors_all b ((b.drop uso).take 2) (b.length / (uss - 1)) (uss - 1) 1
      hbound (fun m hm1 hm2 => hall m hm1 (by omega))
    refine ⟨mft.patchSectors (uso + 2) (b.length / (uss - 1)) b 1 (uss - 1), ?_, ?_, ?_, ?_⟩
    · rw [applyFixUp_reduce b uso uss h2 hin, hcheck]
    · exact patchSectors_length _ _ _ _ _
    · intro i hi1 hi2
      have hp := patchSectors_pair (uso + 2) (b.length / (uss - 1)) hss2 (uss - 1) b 1
        le_rfl (fun m hm1 hm2 => (hbound m hm1 hm2).2)
        (by
          have e : (b.length / (uss - 1)) * 1 = b.length / (uss - 1) := by ring
          omega)
        i hi1 (by omega)
      exact hp
    · intro j hj hjp
      exact patchSectors_untouched (uso + 2) (b.length / (uss - 1)) (uss - 1) b 1 j
        (fun m hm1 hm2 => (hbound m hm1 hm2).1)
        (fun m hm1 hm2 => hjp m hm1 (by omega))
  · intro hex
    obtain ⟨i, hi1, hi2, hi3⟩ := hex
    have hcheck := checkSectors_mismatch b ((b.drop uso).take 2) (b.length / (uss - 1))
      (uss - 1) 1 hbound ⟨i, hi1, by omega, hi3⟩
    rw [applyFixUp_reduce b uso uss h2 hin, hcheck]

set_option maxRecDepth 20000 in
/-- C4 witness: the universal clause instantiated at the demo record (offset
48, size 3, sector size 512). -/
theorem c4_applyFixUp_spec_witness :
    ∃ r, mft.applyFixUp fixupDemoRecord 48 3 = .ok r ∧
      r.length = fixupDemoRecord.length ∧
      (∀ i, 1 ≤ i → i ≤ 3 - 1 →
        r.getD ((fixupDemoRecord.length / (3 - 1)) * i - 2) 0 =
          fixupDemoRecord.getD (48 + 2 + 2 * (i - 1)) 0 ∧
        r.getD ((fixupDemoRecord.length / (3 - 1)) * i - 1) 0 =
          fixupDemoRecord.getD (48 + 2 + 2 * (i - 1) + 1) 0) ∧
      (∀ j, j < fixupDemoRecord.length →
        (∀ i, 1 ≤ i → i ≤ 3 - 1 →
          j ≠ (fixupDemoRecord.length / (3 - 1)) * i - 2 ∧
          j ≠ (fixupDemoRecord.length / (3 - 1)) * i - 1) →
        r.getD j 0 = fixupDemoRecord.getD j 0) :=
  (c4_applyFixUp_spec.1 fixupDemoRecord 48 3 (by decide) (by decide) (by decide)).1
    (by decide)

/-! Claim C10: ParseRecord never mutates the caller's buffer. -/

namespace mft

theorem opt_some {α : Type} (a : α) : opt (some a) = Res.ok a := rfl

theorem opt_none {α : Type} : (opt none : Res α) = Res.panic := rfl

theorem ok_bind {α β : Type} (a : α) (f : α → Res β) : (Res.ok a >>= f) = f a := rfl

theorem err_bind {α β : Type} (e : Err) (f : α → Res β) :
    ((Res.err e : Res α) >>= f) = Res.err e := rfl

theorem panic_bind {α β : Type} (f : α → Res β) : ((Res.panic : Res α) >>= f) = Res.panic := rfl

end mft

theorem getD_append_left {α : Type} (l l2 : List α) (i : Nat) (d : α) (h : i < l.length) :
    (l ++ l2).getD i d = l.getD i d := by
  rw [List.getD_eq_getElem?_getD, List.getD_eq_getElem?_getD, List.getElem?_append_left h]

theorem getD_append_length {α : Type} (l : List α) (x d : α) :
    (l ++ [x]).getD l.length d = x := by
  rw [List.getD_eq_getElem?_getD, List.getElem?_append_right le_rfl]
  simp

theorem getD_set_ne' {α : Type} (l : List α) (m j : Nat) (v d : α) (h : m ≠ j) :
    (l.set m v).getD j d = l.getD j d := by
  rw [List.getD_eq_getElem?_getD, List.getD_eq_getElem?_getD, List.getElem?_set_ne h]


theorem applyFixUpH_fst (hh : List (List Nat)) (q : Nat) (o l : Int) :
    (mft.applyFixUpH hh q o l).1 = hh ∨
    ∃ w, (mft.applyFixUpH hh q o l).1 = hh.set q w := by
  unfold mft.applyFixUpH
  cases mft.applyFixUp (hh.getD q []) o l with
  | ok r => exact Or.inr ⟨r, rfl⟩
  | err e => exact Or.inl rfl
  | panic => exact Or.inl rfl

theorem applyFixUpH_snd (hh : List (List Nat)) (q : Nat) (o l : Int) :
    (mft.applyFixUpH hh q o l).2 = mft.applyFixUp (hh.getD q []) o l := by
  unfold mft.applyFixUpH
  cases mft.applyFixUp (hh.getD q []) o l <;> rfl

/-- `ParseRecordH` agrees with the pure `ParseRecord` on the parse result. -/
theorem ParseRecordH_agrees (h : List (List Nat)) (p : Nat) (hp : p < h.length) :
    (mft.ParseRecordH h p).2 = mft.ParseRecord (h.getD p []) := by
  simp only [mft.ParseRecordH, mft.ParseRecord]
  rw [if_neg (by omega)]
  by_cases h42 : (h.getD p []).length < 42
  · simp only [if_pos h42]
  · simp only [if_neg h42]
    by_cases hsig : (h.getD p []).take 4 ≠ mft.fileSignature
    · simp only [if_pos hsig]
    · simp only [if_neg hsig]
      cases hrd : binutil.Read (h.getD p []) 0x20 8 with
      | none => simp only [hrd, mft.opt, mft.panic_bind]
      | some rb =>
        simp only [hrd, mft.opt, mft.ok_bind]
        cases hpfr : mft.ParseFileReference rb with
        | err e => simp only [hpfr, mft.err_bind]
        | panic => simp only [hpfr, mft.panic_bind]
        | ok fr =>
          simp only [hpfr, mft.ok_bind]
          cases hu14 : binutil.Uint16 (h.getD p []) 0x14 with
          | none => simp only [hu14, mft.opt, mft.panic_bind]
          | some fao =>
            simp only [hu14, mft.opt, mft.ok_bind]
            by_cases hfao : fao ≥ (h.getD p []).length
            · simp only [if_pos hfao]
            · simp only [if_neg hfao]
              cases hu4 : binutil.Uint16 (h.getD p []) 0x04 with
              | none => simp only [hu4, mft.opt, mft.panic_bind]
              | some uso =>
                simp only [hu4, mft.opt, mft.ok_bind]
                cases hu6 : binutil.Uint16 (h.getD p []) 0x06 with
                | none => simp only [hu6, mft.opt, mft.panic_bind]
                | some uss =>
                  simp only [hu6, mft.opt, mft.ok_bind]
                  have hq : ((h ++ [binutil.Duplicate (h.getD p [])]).getD h.length []) =
                      h.getD p [] := getD_append_length h _ _
                  rw [applyFixUpH_snd, hq]
                  cases hfix : mft.applyFixUp (h.getD p []) (uso : Int) (uss : Int) with
                  | ok fixed => simp only [hfix, mft.ok_bind]
                  | err e => simp only [hfix, mft.err_bind]
                  | panic => simp only [hfix, mft.panic_bind]

/-- The heap `ParseRecordH` returns is at least as long as the input heap and
agrees with it on every original index: the only writes go to the freshly
allocated private copy. -/
theorem ParseRecordH_fst_props (h : List (List Nat)) (p : Nat) :
    h.length ≤ (mft.ParseRecordH h p).1.length ∧
    ∀ i, i < h.length → (mft.ParseRecordH h p).1.getD i [] = h.getD i [] := by
  have happ : ∀ v : List Nat, h.length ≤ (h ++ [v]).length ∧
      ∀ i, i < h.length → (h ++ [v]).getD i [] = h.getD i [] := by
    intro v
    constructor
    · simp
    · intro i hi
      exact getD_append_left h [v] i [] hi
  have hset : ∀ (v w : List Nat), h.length ≤ ((h ++ [v]).set h.length w).length ∧
      ∀ i, i < h.length → ((h ++ [v]).set h.length w).getD i [] = h.getD i [] := by
    intro v w
    constructor
    · simp
    · intro i hi
      rw [getD_set_ne' _ _ _ _ _ (by omega)]
      exact getD_append_left h [v] i [] hi
  simp only [mft.ParseRecordH]
  by_cases hp : p ≥ h.length
  · rw [if_pos hp]
    exact ⟨le_rfl, fun i _ => by simp⟩
  · rw [if_neg hp]
    by_cases h42 : (h.getD p []).length < 42
    · simp only [if_pos h42]
      exact ⟨le_rfl, fun i _ => by simp⟩
    · simp only [if_neg h42]
      by_cases hsig : (h.getD p []).take 4 ≠ mft.fileSignature
      · simp only [if_pos hsig]
        exact ⟨le_rfl, fun i _ => by simp⟩
      · simp only [if_neg hsig]
        cases hrd : binutil.Read (h.getD p []) 0x20 8 with
        | none => simp only [hrd, mft.opt, mft.panic_bind]; exact happ _
        | some rb =>
          simp only [hrd, mft.opt, mft.ok_bind]
          cases hpfr : mft.ParseFileReference rb with
          | err e => simp only [hpfr, mft.err_bind]; exact happ _
          | panic => simp only [hpfr, mft.panic_bind]; exact happ _
          | ok fr =>
            simp only [hpfr, mft.ok_bind]
            cases hu14 : binutil.Uint16 (h.getD p []) 0x14 with
            | none => simp only [hu14, mft.opt, mft.panic_bind]; exact happ _
            | some fao =>
              simp only [hu14, mft.opt, mft.ok_bind]
              by_cases hfao : fao ≥ (h.getD p []).length
              · simp only [if_pos hfao]
                exact happ _
              · simp only [if_neg hfao]
                cases hu4 : binutil.Uint16 (h.getD p []) 0x04 with
                | none => simp only [hu4, mft.opt, mft.panic_bind]; exact happ _
                | some uso =>
                  simp only [hu4, mft.opt, mft.ok_bind]
                  cases hu6 : binutil.Uint16 (h.getD p []) 0x06 with
                  | none => simp only [hu6, mft.opt, mft.panic_bind]; exact happ _
                  | some uss =>
                    simp only [hu6, mft.opt, mft.ok_bind]
                    have hfst := applyFixUpH_fst (h ++ [binutil.Duplicate (h.getD p [])])
                      h.length (uso : Int) (uss : Int)
                    cases hfix : (mft.applyFixUpH (h ++ [binutil.Duplicate (h.getD p [])])
                        h.length (uso : Int) (uss : Int)).2 with
                    | ok fixed =>
                      simp only [hfix]
                      rcases hfst with hsh | ⟨w, hsh⟩
                      · rw [hsh]; exact happ _
                      · rw [hsh]; exact hset _ _
                    | err e =>
                      simp only [hfix]
                      rcases hfst with hsh | ⟨w, hsh⟩
                      · rw [hsh]; exact happ _
                      · rw [hsh]; exact hset _ _
                    | panic =>
                      simp only [hfix]
                      rcases hfst with hsh | ⟨w, hsh⟩
                      · rw [hsh]; exact happ _
                      · rw [hsh]; exact hset _ _

/-- C10: `ParseRecordH` models `ParseRecord` with Go's pointer semantics over
a heap of buffers.  The caller's buffer — and every other pre-existing buffer
— is unchanged by the call, on success and on every error path; the parse
result is a function of the buffer contents alone; and re-parsing after a
parse returns the same result, because fix-up patches only the private
copy. -/
theorem c10_parseRecord_no_mutation :
    (∀ (h : List (List Nat)) (p i : Nat), i < h.length →
      (mft.ParseRecordH h p).1.getD i [] = h.getD i []) ∧
    (∀ (h : List (List Nat)) (p : Nat), p < h.length →
      (mft.ParseRecordH h p).2 = mft.ParseRecord (h.getD p [])) ∧
    (∀ (h : List (List Nat)) (p : Nat),
      (mft.ParseRecordH ((mft.ParseRecordH h p).1) p).2 = (mft.ParseRecordH h p).2) := by
  refine ⟨fun h p i hi => (ParseRecordH_fst_props h p).2 i hi, ParseRecordH_agrees, ?_⟩
  intro h p
  by_cases hp : p < h.length
  · have h1 := ParseRecordH_agrees h p hp
    have hlen := (ParseRecordH_fst_props h p).1
    have h2 := ParseRecordH_agrees ((mft.ParseRecordH h p).1) p (by omega)
    rw [h2, (ParseRecordH_fst_props h p).2 p hp, h1]
  · have hpan : mft.ParseRecordH h p = (h, mft.Res.panic) := by
      simp only [mft.ParseRecordH]
      rw [if_pos (by omega)]
    have hfst : (mft.ParseRecordH h p).1 = h := by rw [hpan]
    rw [hfst]

/-- C10 witness: the frame and agreement clauses at a concrete one-buffer
heap. -/
theorem c10_parseRecord_no_mutation_witness :
    (mft.ParseRecordH [[]] 0).1.getD 0 [] = [] ∧
    (mft.ParseRecordH [[]] 0).2 = mft.ParseRecord [] :=
  ⟨c10_parseRecord_no_mutation.1 [[]] 0 0 (by decide),
   c10_parseRecord_no_mutation.2.1 [[]] 0 (by decide)⟩


namespace fragment

theorem read_eof_past (r : Reader) (n : Nat) (h : (r.fragments.length : Int) ≤ r.idx) :
    r.read n = ([], r, .eof) := by
  simp only [Reader.read]
  rw [if_pos h]

theorem read_zero (r : Reader) (h : r.idx < (r.fragments.length : Int)) :
    r.read 0 = ([], r, .ok) := by
  simp only [Reader.read]
  rw [if_neg (by omega), if_pos trivial]

theorem read_advance_eof (r : Reader) (n : Nat) (hn : n ≠ 0)
    (hidx : r.idx < (r.fragments.length : Int)) (hrem : r.remaining = 0)
    (h2 : (r.fragments.length : Int) ≤ r.idx + 1) :
    r.read n = ([], { r with idx := r.idx + 1 }, .eof) := by
  simp only [Reader.read]
  rw [if_neg (by omega), if_neg hn, if_pos hrem, if_pos (by omega)]

theorem read_mid (r : Reader) (n : Nat) (hn : n ≠ 0)
    (hidx : r.idx < (r.fragments.length : Int)) (hrem : r.remaining ≠ 0)
    (h0 : 0 ≤ r.remaining) (hb : r.pos + r.remaining ≤ (r.src.length : Int)) :
    r.read n = ((r.src.drop r.pos.toNat).take (min (n : Int) r.remaining).toNat,
      { r with pos := r.pos + min (n : Int) r.remaining,
               remaining := r.remaining - min (n : Int) r.remaining }, .ok) := by
  have ht : min (n : Int) r.remaining ≤ r.remaining := min_le_right _ _
  simp only [Reader.read]
  rw [if_neg (by omega), if_neg hn, if_neg hrem]
  simp only []
  rw [if_neg (by omega), if_pos (by omega)]

theorem read_advance_ok (r : Reader) (n : Nat) (hn : n ≠ 0)
    (hidx : r.idx < (r.fragments.length : Int)) (hrem : r.remaining = 0)
    (h2 : r.idx + 1 < (r.fragments.length : Int)) (h3 : 0 ≤ r.idx + 1)
    (hoff : 0 ≤ (r.fragments.getD (r.idx + 1).toNat ⟨0, 0⟩).Offset)
    (hlen : 0 ≤ (r.fragments.getD (r.idx + 1).toNat ⟨0, 0⟩).Length)
    (hb : (r.fragments.getD (r.idx + 1).toNat ⟨0, 0⟩).Offset +
        (r.fragments.getD (r.idx + 1).toNat ⟨0, 0⟩).Length ≤ (r.src.length : Int)) :
    r.read n =
      ((r.src.drop (r.fragments.getD (r.idx + 1).toNat ⟨0, 0⟩).Offset.toNat).take
        (min (n : Int) (r.fragments.getD (r.idx + 1).toNat ⟨0, 0⟩).Length).toNat,
       { r with idx := r.idx + 1,
                pos := (r.fragments.getD (r.idx + 1).toNat ⟨0, 0⟩).Offset +
                  min (n : Int) (r.fragments.getD (r.idx + 1).toNat ⟨0, 0⟩).Length,
                remaining := (r.fragments.getD (r.idx + 1).toNat ⟨0, 0⟩).Length -
                  min (n : Int) (r.fragments.getD (r.idx + 1).toNat ⟨0, 0⟩).Length },
       .ok) := by
  have ht : min (n : Int) (r.fragments.getD (r.idx + 1).toNat ⟨0, 0⟩).Length ≤
      (r.fragments.getD (r.idx + 1).toNat ⟨0, 0⟩).Length := min_le_right _ _
  simp only [Reader.read]
  rw [if_neg (by omega), if_neg hn, if_pos hrem, if_neg (by omega), if_neg (by omega),
    if_neg (by omega)]
  simp only []
  rw [if_neg (by omega), if_pos (by omega)]

end fragment

theorem take_plus_take (l : List Nat) (p t s : Nat) :
    (l.drop p).take (t + s) = (l.drop p).take t ++ (l.drop (p + t)).take s := by
  rw [List.take_add, List.drop_drop]

namespace fragment

theorem readAll_drain (n : Nat) (hn : n ≠ 0) :
    ∀ (remB remN : Nat), remN ≤ remB →
    ∀ (src : List Nat) (F : List Fragment) (idx pos : Int) (tail : List Nat),
    idx < (F.length : Int) → 0 ≤ pos → pos + (remN : Int) ≤ (src.length : Int) →
    (∃ fuel, readAllAux fuel n ⟨src, pos + (remN : Int), F, idx, 0⟩ = some tail) →
    ∃ fuel, readAllAux fuel n ⟨src, pos, F, idx, (remN : Int)⟩ =
      some ((src.drop pos.toNat).take remN ++ tail) := by
  intro remB
  induction remB with
  | zero =>
    intro remN hrB src F idx pos tail hidx hpos hb hcont
    have h0 : remN = 0 := by omega
    subst h0
    simp only [Nat.cast_zero, add_zero] at hcont ⊢
    simpa using hcont
  | succ remB IH =>
    intro remN hrB src F idx pos tail hidx hpos hb hcont
    by_cases h0 : remN = 0
    · subst h0
      simp only [Nat.cast_zero, add_zero] at hcont ⊢
      simpa using hcont
    · obtain ⟨m, hmdef⟩ : ∃ m, min n remN = m := ⟨_, rfl⟩
      have hmle : m ≤ remN := hmdef ▸ Nat.min_le_right n remN
      have hmge : 1 ≤ m := hmdef ▸ Nat.le_min.mpr ⟨by omega, by omega⟩
      have hstep := read_mid ⟨src, pos, F, idx, (remN : Int)⟩ n hn
        (by simpa using hidx) (by simpa using (by exact_mod_cast h0 : ((remN : Int)) ≠ 0))
        (by simp) (by simpa using hb)
      have hm : min ((n : Int)) ((remN : Nat) : Int) = ((m : Nat) : Int) := by
        rw [← Nat.cast_min, hmdef]
      have hmr : ((remN : Int)) - ((m : Nat) : Int) = ((remN - m : Nat) : Int) := by
        omega
      have hposm : (pos + ((m : Nat) : Int)).toNat = pos.toNat + m := by
        omega
      have hps : pos + ((m : Nat) : Int) + ((remN - m : Nat) : Int) =
          pos + ((remN : Nat) : Int) := by
        omega
      have hcont2 : ∃ fuel, readAllAux fuel n
          ⟨src, pos + ((m : Nat) : Int) + ((remN - m : Nat) : Int), F, idx, 0⟩ = some tail := by
        rw [hps]
        exact hcont
      obtain ⟨fuel, hfu⟩ := IH (remN - m) (by omega) src F idx
        (pos + ((m : Nat) : Int)) tail (by omega) (by omega) (by omega) hcont2
      refine ⟨fuel + 1, ?_⟩
      simp only [readAllAux]
      rw [hstep]
      simp only [hm, Int.toNat_natCast, hmr]
      rw [hfu]
      simp only [Option.map_some']
      rw [hposm]
      rw [← List.append_assoc]
      rw [← take_plus_take]
      have hfin : m + (remN - m) = remN := by omega
      rw [hfin]

end fragment

namespace fragment

theorem readAll_frags (n : Nat) (hn : n ≠ 0) (src : List Nat) :
    ∀ (k : Nat) (F : List Fragment),
    (∀ f ∈ F, 0 ≤ f.Offset ∧ 0 ≤ f.Length ∧ f.Offset + f.Length ≤ (src.length : Int)) →
    ∀ (j : Nat), j + k = F.length → ∀ pos : Int,
    ∃ fuel, readAllAux fuel n ⟨src, pos, F, (j : Int) - 1, 0⟩ =
      some (specConcat src (F.drop j)) := by
  intro k
  induction k with
  | zero =>
    intro F hvalid j hj pos
    refine ⟨1, ?_⟩
    simp only [readAllAux]
    rw [read_advance_eof ⟨src, pos, F, (j : Int) - 1, 0⟩ n hn (by simp only; omega) rfl
      (by simp only; omega)]
    simp only [specConcat]
    rw [show j = F.length from by omega, List.drop_length]
    rfl
  | succ k IH =>
    intro F hvalid j hj pos
    have hjlt : j < F.length := by omega
    have hj1 : ((j : Int) - 1) + 1 = (j : Int) := by ring
    have hfg : F.getD j ⟨0, 0⟩ = F.get ⟨j, hjlt⟩ := by
      rw [List.getD_eq_getElem?_getD, List.getElem?_eq_getElem hjlt]
      rfl
    have hfmem : F.getD j ⟨0, 0⟩ ∈ F := by
      rw [hfg]
      exact List.get_mem F j hjlt
    obtain ⟨hO, hL, hOL⟩ := hvalid _ hfmem
    obtain ⟨Lt, hLt⟩ : ∃ Lt : Nat, (Lt : Int) = (F.getD j ⟨0, 0⟩).Length :=
      ⟨(F.getD j ⟨0, 0⟩).Length.toNat, Int.toNat_of_nonneg hL⟩
    obtain ⟨m, hmdef⟩ : ∃ m, min n Lt = m := ⟨_, rfl⟩
    have hmle : m ≤ Lt := hmdef ▸ Nat.min_le_right n Lt
    have hmI : min ((n : Int)) (F.getD j ⟨0, 0⟩).Length = ((m : Nat) : Int) := by
      rw [← hLt, ← Nat.cast_min, hmdef]
    have hstep := read_advance_ok ⟨src, pos, F, (j : Int) - 1, 0⟩ n hn
      (by simp only; omega) rfl (by simp only; omega) (by simp only; omega)
      (by simp only; rw [hj1, Int.toNat_natCast]; exact hO)
      (by simp only; rw [hj1, Int.toNat_natCast]; exact hL)
      (by simp only; rw [hj1, Int.toNat_natCast]; exact hOL)
    simp only [hj1, Int.toNat_natCast] at hstep
    rw [hmI] at hstep
    have hrr : (F.getD j ⟨0, 0⟩).Length - ((m : Nat) : Int) = ((Lt - m : Nat) : Int) := by
      omega
    rw [hrr] at hstep
    have hcont := IH F hvalid (j + 1) (by omega)
      ((F.getD j ⟨0, 0⟩).Offset + ((m : Nat) : Int) + ((Lt - m : Nat) : Int))
    rw [show ((j + 1 : Nat) : Int) - 1 = (j : Int) from by push_cast; ring] at hcont
    obtain ⟨fuel, hfu⟩ := readAll_drain n hn (Lt - m) (Lt - m) le_rfl src F (j : Int)
      ((F.getD j ⟨0, 0⟩).Offset + ((m : Nat) : Int)) (specConcat src (F.drop (j + 1)))
      (by omega) (by omega) (by omega) hcont
    refine ⟨fuel + 1, ?_⟩
    simp only [readAllAux]
    rw [hstep]
    simp only [Int.toNat_natCast]
    rw [hfu]
    simp only [Option.map_some']
    have hposm : ((F.getD j ⟨0, 0⟩).Offset + ((m : Nat) : Int)).toNat =
        (F.getD j ⟨0, 0⟩).Offset.toNat + m := by
      omega
    rw [hposm, ← List.append_assoc, ← take_plus_take]
    have hfin : m + (Lt - m) = Lt := by omega
    rw [hfin]
    have hdropj : F.drop j = F.get ⟨j, hjlt⟩ :: F.drop (j + 1) := by
      rw [List.drop_eq_getElem_cons hjlt]
      rfl
    rw [hdropj]
    simp only [specConcat, List.map_cons, List.flatten_cons]
    rw [← hfg]
    simp only [fragSlice]
    rw [show (F.getD j ⟨0, 0⟩).Length.toNat = Lt from by omega]

end fragment

/-- C2: reading a FragmentReader to exhaustion (repeated `Read` calls with a
non-empty buffer, as `ReadAll` performs them) yields exactly the concatenation,
in list order, of the source byte ranges the fragments denote, for every
fragment list over the source — including non-monotonic lists that seek
backwards. -/
theorem c2_fragmentReader_concatenation (src : List Nat) (F : List fragment.Fragment) (n : Nat)
    (hn : n ≠ 0)
    (hvalid : ∀ f ∈ F, 0 ≤ f.Offset ∧ 0 ≤ f.Length ∧
      f.Offset + f.Length ≤ (src.length : Int)) :
    ∃ fuel, fragment.readAllAux fuel n (fragment.NewReader src F) =
      some (fragment.specConcat src F) := by
  have h := fragment.readAll_frags n hn src F.length F hvalid 0 (by omega) 0
  simpa [fragment.NewReader] using h

/-- C2 witness: a backward-seeking fragment list over a ten-byte source. -/
theorem c2_fragmentReader_concatenation_witness :
    ∃ fuel, fragment.readAllAux fuel 4
        (fragment.NewReader (List.range 10) [⟨3, 2⟩, ⟨6, 3⟩, ⟨1, 5⟩]) =
      some (fragment.specConcat (List.range 10) [⟨3, 2⟩, ⟨6, 3⟩, ⟨1, 5⟩]) :=
  c2_fragmentReader_concatenation (List.range 10) [⟨3, 2⟩, ⟨6, 3⟩, ⟨1, 5⟩] 4 (by decide) (by decide)

namespace fragment

theorem read_le_remaining (r : Reader) (n : Nat) (h0 : 0 ≤ r.remaining)
    (hrem : r.remaining ≠ 0) : (((r.read n).1.length : Int)) ≤ r.remaining := by
  by_cases h1 : (r.fragments.length : Int) ≤ r.idx
  · rw [read_eof_past r n h1]
    simpa using h0
  · by_cases h2 : n = 0
    · subst h2
      rw [read_zero r (by omega)]
      simpa using h0
    · simp only [Reader.read]
      rw [if_neg (by omega), if_neg h2, if_neg hrem]
      simp only []
      rw [if_neg (by omega)]
      have hmin : min (n : Int) r.remaining ≤ r.remaining := min_le_right _ _
      have hminnn : 0 ≤ min (n : Int) r.remaining := le_min (Int.natCast_nonneg n) h0
      by_cases h3 : min (n : Int) r.remaining ≤ (r.src.length : Int) - r.pos
      · rw [if_pos h3]
        have hlt := List.length_take_le (min (n : Int) r.remaining).toNat
          (r.src.drop r.pos.toNat)
        simp only [List.length_take] at hlt ⊢
        omega
      · rw [if_neg h3]
        have hlt := List.length_take_le (max ((r.src.length : Int) - r.pos) 0).toNat
          (r.src.drop r.pos.toNat)
        have hmaxle : max ((r.src.length : Int) - r.pos) 0 ≤ min (n : Int) r.remaining :=
          max_le (le_of_lt (by omega)) hminnn
        have hmax0 : 0 ≤ max ((r.src.length : Int) - r.pos) 0 := le_max_right _ _
        simp only [List.length_take] at hlt ⊢
        omega

theorem read_preserves_wf (r : Reader) (n : Nat) (hwf : Wf r) :
    Wf (r.read n).2.1 ∧
    ((r.read n).2.2 = .eof → r.remaining = 0 ∧
      (r.fragments.length : Int) ≤ r.idx + 1) := by
  obtain ⟨hpos, hrem0, hsum, hilb, hpast, hfr⟩ := hwf
  by_cases h1 : (r.fragments.length : Int) ≤ r.idx
  · rw [read_eof_past r n h1]
    exact ⟨⟨hpos, hrem0, hsum, hilb, hpast, hfr⟩,
      fun _ => ⟨hpast h1, by omega⟩⟩
  · by_cases h2 : n = 0
    · subst h2
      rw [read_zero r (by omega)]
      exact ⟨⟨hpos, hrem0, hsum, hilb, hpast, hfr⟩, fun habs => by simp at habs⟩
    · by_cases h3 : r.remaining = 0
      · by_cases h4 : (r.fragments.length : Int) ≤ r.idx + 1
        · rw [read_advance_eof r n h2 (by omega) h3 h4]
          refine ⟨⟨hpos, hrem0, hsum, by simp only; omega, fun _ => h3, hfr⟩,
            fun _ => ⟨h3, h4⟩⟩
        · have hlt : (r.idx + 1).toNat < r.fragments.length := by omega
          have hfg : r.fragments.getD (r.idx + 1).toNat ⟨0, 0⟩ =
              r.fragments.get ⟨(r.idx + 1).toNat, hlt⟩ := by
            rw [List.getD_eq_getElem?_getD, List.getElem?_eq_getElem hlt]
            rfl
          obtain ⟨hO, hL, hOL⟩ := hfr _ (hfg ▸ List.get_mem r.fragments _ hlt)
          rw [read_advance_ok r n h2 (by omega) h3 (by omega) (by omega) hO hL hOL]
          have htnn : 0 ≤ min ((n : Int)) (r.fragments.getD (r.idx + 1).toNat ⟨0, 0⟩).Length :=
            le_min (Int.natCast_nonneg n) hL
          have htle : min ((n : Int)) (r.fragments.getD (r.idx + 1).toNat ⟨0, 0⟩).Length ≤
              (r.fragments.getD (r.idx + 1).toNat ⟨0, 0⟩).Length := min_le_right _ _
          refine ⟨⟨by simp only; omega, by simp only; omega, by simp only; omega,
            by simp only; omega, fun habs => (h4 (by simpa using habs)).elim, hfr⟩,
            fun habs => by simp at habs⟩
      · rw [read_mid r n h2 (by omega) h3 hrem0 hsum]
        have htnn : 0 ≤ min ((n : Int)) r.remaining := le_min (Int.natCast_nonneg n) hrem0
        have htle : min ((n : Int)) r.remaining ≤ r.remaining := min_le_right _ _
        refine ⟨⟨by simp only; omega, by simp only; omega, by simp only; omega,
          by simp only; omega, fun habs => (h1 (by simpa using habs)).elim, hfr⟩,
          fun habs => by simp at habs⟩

theorem newReader_wf (src : List Nat) (F : List Fragment)
    (hvalid : ∀ f ∈ F, 0 ≤ f.Offset ∧ 0 ≤ f.Length ∧
      f.Offset + f.Length ≤ (src.length : Int)) :
    Wf (NewReader src F) := by
  exact ⟨le_rfl, le_rfl, by simp only [NewReader]; omega, by simp only [NewReader]; omega,
    fun _ => rfl, by simp only [NewReader]; exact hvalid⟩

end fragment

/-- C8: a single `Read` call returns at most the remaining bytes of the
current fragment (never crossing a fragment boundary), a zero-length request
returns no bytes with no error, and `EOF` is reported only when the current
fragment is fully consumed and no fragment follows; the reachable-state
invariant `Wf` holds for a fresh reader over in-range fragments and is
preserved by every call. -/
theorem c8_read_boundary_invariants :
    (∀ (r : fragment.Reader) (n : Nat), 0 ≤ r.remaining → r.remaining ≠ 0 →
      (((r.read n).1.length : Int)) ≤ r.remaining) ∧
    (∀ r : fragment.Reader, r.idx < (r.fragments.length : Int) →
      r.read 0 = ([], r, .ok)) ∧
    (∀ (r : fragment.Reader) (n : Nat), fragment.Wf r → (r.read n).2.2 = .eof →
      r.remaining = 0 ∧ (r.fragments.length : Int) ≤ r.idx + 1) ∧
    (∀ (src : List Nat) (F : List fragment.Fragment),
      (∀ f ∈ F, 0 ≤ f.Offset ∧ 0 ≤ f.Length ∧
        f.Offset + f.Length ≤ (src.length : Int)) →
      fragment.Wf (fragment.NewReader src F)) ∧
    (∀ (r : fragment.Reader) (n : Nat), fragment.Wf r →
      fragment.Wf (r.read n).2.1) :=
  ⟨fragment.read_le_remaining, fragment.read_zero,
   fun r n hwf => (fragment.read_preserves_wf r n hwf).2,
   fragment.newReader_wf,
   fun r n hwf => (fragment.read_preserves_wf r n hwf).1⟩

/-- C8 witness: the clauses at a concrete mid-fragment reader state. -/
theorem c8_read_boundary_invariants_witness :
    (((((fragment.Reader.mk [5, 6, 7] 1 [⟨0, 3⟩] 0 2).read 1).1.length : Int)) ≤ 2) ∧
    ((fragment.Reader.mk [5, 6, 7] 1 [⟨0, 3⟩] 0 2).read 0 =
      ([], fragment.Reader.mk [5, 6, 7] 1 [⟨0, 3⟩] 0 2, .ok)) ∧
    fragment.Wf (fragment.NewReader [5, 6, 7] [⟨0, 3⟩]) ∧
    fragment.Wf ((fragment.Reader.mk [5, 6, 7] 1 [⟨0, 3⟩] 0 2).read 1).2.1 :=
  ⟨c8_read_boundary_invariants.1 _ 1 (by decide) (by decide),
   c8_read_boundary_invariants.2.1 _ (by decide),
   c8_read_boundary_invariants.2.2.2.1 [5, 6, 7] [⟨0, 3⟩] (by decide),
   c8_read_boundary_invariants.2.2.2.2 _ 1 (by decide)⟩
